import Mathlib

/-!
# Verification of `reflbin.c` (reductus/reductus)

This file gives a shallow embedding of the frame-accumulation and encoding
pipeline of `src/reflbin/reflbin.c` and proves properties of it.

Conventions used throughout:
* C `unsigned int` values are modelled as `U32 := ZMod 4294967296`, so that
  additions, multiplications and subtractions wrap exactly as in C.
* C character buffers are modelled either as `List Char` (a buffer together
  with its current length) or as functions `Nat → Char` (a raw array).
* The global mutable state of the program (`matrix`, `frame_r`, `frame_w`,
  `frame_h`, `rows_accumulated`, the accounting counters, `rows`, `columns`,
  `warn_dims`) is collected in the structure `PState`, and the command line
  options in `Cfg`.
-/

/-- C `unsigned int`: arithmetic modulo `2^32`. -/
abbrev U32 : Type := ZMod 4294967296

/-- `MAX_BIN` from reflbin.c line 16. -/
def MAX_BIN : Nat := 2048

/-- The character `'0' + d` (C expression `'0'+u%10` in `utoa`). -/
def digitChar (d : Nat) : Char := Char.ofNat (48 + d)

/-- Mathematical decimal representation of a natural number, most significant
digit first, a single `'0'` for zero and no leading zeros otherwise.  This is
the specification that `utoa` is compared against. -/
def decRepr (u : Nat) : List Char :=
  if _h : u < 10 then [digitChar u]
  else decRepr (u / 10) ++ [digitChar (u % 10)]
decreasing_by exact Nat.div_lt_self (by omega) (by omega)

/-- Point update of an array modelled as a function (`a[i] = c`). -/
def updateF {α : Type} (a : Nat → α) (i : Nat) (c : α) : Nat → α :=
  fun j => if j = i then c else a j

/-- Swap of two cells of an array modelled as a function. -/
def swapF {α : Type} (a : Nat → α) (i j : Nat) : Nat → α :=
  fun k => if k = i then a j else if k = j then a i else a k

/-- The digit-producing loop of `utoa` (reflbin.c lines 98-101): writes the
decimal digits of `u` least-significant first at positions `l, l+1, ...` and
returns the updated buffer and position.  The `while (u)` loop is embedded
with explicit fuel; `utoa` passes fuel `u`, which is more than the number of
iterations the loop can make (each iteration divides `u` by ten). -/
def utoaLoop : Nat → Nat → (Nat → Char) → Nat → (Nat → Char) × Nat
  | 0, _, a, l => (a, l)
  | fuel + 1, u, a, l =>
      if u = 0 then (a, l)
      else utoaLoop fuel (u / 10) (updateF a l (digitChar (u % 10))) (l + 1)

/-- The digit-reversing loop of `utoa` (reflbin.c lines 107-112): for
`i = l/2` down to `1`, swap `a[l-i]` and `a[i-1]`. -/
def revLoop {α : Type} (l : Nat) : Nat → (Nat → α) → Nat → α
  | 0, a => a
  | i + 1, a => revLoop l i (swapF a (l - (i + 1)) i)

/-- `utoa` from reflbin.c lines 94-115: writes the decimal representation of
`u` into the buffer `a` and returns the new buffer and the number of
characters written. -/
def utoa (u : Nat) (a : Nat → Char) : (Nat → Char) × Nat :=
  let p := utoaLoop u u a 0
  if p.2 = 0 then (updateF p.1 0 (digitChar 0), 1)
  else if 1 < p.2 then (revLoop p.2 (p.2 / 2) p.1, p.2)
  else p

/-- The list of characters produced by `utoa u` (the written prefix of the
buffer). -/
def utoaList (u : Nat) : List Char :=
  ((List.range (utoa u (fun _ => ' ')).2).map (utoa u (fun _ => ' ')).1)

/-- Command line options of reflbin.c (lines 75-77) that the pipeline reads.
`savePart` models the C global `save_partial` (`-p` flag) and `doTranspose`
models `do_transpose`. -/
structure Cfg where
  width : Nat
  height : Nat
  xstart : Nat
  xstop : Nat
  ystart : Nat
  ystop : Nat
  savePart : Bool
  doTranspose : Bool

/-- The per-frame and per-file mutable globals of reflbin.c (lines 61-72).
`warn_count` counts the shape warnings printed to stderr. -/
structure PState where
  matrix : Nat → U32
  frame_r : Nat
  frame_w : Nat
  frame_h : Nat
  rows_accumulated : Nat
  total_counts : U32
  recorded_counts : U32
  ignored_counts : U32
  nnz : Nat
  rows : Nat
  columns : Nat
  warn_dims : Bool
  warn_count : Nat

/-- `clear_row` (lines 237-242): zero the `MAX_BIN` cells starting at
`matrix + frame_h*frame_w`. -/
def clear_row (st : PState) : PState :=
  { st with matrix := fun j =>
      if st.frame_h * st.frame_w ≤ j ∧ j < st.frame_h * st.frame_w + MAX_BIN then 0
      else st.matrix j }

/-- `next_row` (lines 244-248). -/
def next_row (st : PState) : PState :=
  { st with rows_accumulated := 0, frame_h := st.frame_h + 1 }

/-- `next_frame` (lines 250-255). -/
def next_frame (st : PState) : PState :=
  clear_row { st with frame_r := 0, frame_w := 0, frame_h := 0, rows_accumulated := 0 }

/-- Sum of the slice `v[lo], ..., v[hi-1]` of a row, used for the plain
accumulation loops of `save_row`. -/
def sliceSum (v : List U32) (lo hi : Nat) : U32 := ((v.take hi).drop lo).sum

/-- The central accumulation loop of `save_row` (lines 333-337): add each
window pixel into its bin, track `recorded_counts`, and advance the
width accumulator.  Arguments: remaining pixels, matrix, `bin`, `w`,
`recorded_counts`. -/
def binLoop (width base : Nat) :
    List U32 → (Nat → U32) → Nat → Nat → U32 → (Nat → U32) × Nat × Nat × U32
  | [], m, bin, w, rec => (m, bin, w, rec)
  | x :: rest, m, bin, w, rec =>
      let m' := updateF m (base + bin) (m (base + bin) + x)
      if w + 1 = width then binLoop width base rest m' (bin + 1) 0 (rec + x)
      else binLoop width base rest m' bin (w + 1) (rec + x)

/-- `save_row` (lines 319-368): bin one raw row into the current frame row. -/
def save_row (cfg : Cfg) (st : PState) (v : List U32) : PState :=
  let st' :=
    if cfg.ystart ≤ st.frame_r ∧ st.frame_r ≤ cfg.ystop then
      let base := st.frame_h * st.frame_w
      let n := v.length
      let ign1 := sliceSum v 0 (min cfg.xstart n)
      let p := binLoop cfg.width base ((v.take (cfg.xstop + 1)).drop cfg.xstart)
                 st.matrix 0 0 st.recorded_counts
      let m := p.1
      let bin := p.2.1
      let w := p.2.2.1
      let ign3 := sliceSum v (cfg.xstop + 1) n
      let q : Nat × U32 × U32 :=
        if cfg.savePart then
          (if w ≠ 0 then bin + 1 else bin, p.2.2.2, st.ignored_counts + ign1 + ign3)
        else if bin = 0 ∧ w ≠ 0 then
          (bin + 1, p.2.2.2, st.ignored_counts + ign1 + ign3)
        else
          (bin, p.2.2.2 - m (base + bin), st.ignored_counts + ign1 + ign3 + m (base + bin))
      let colsInfo : Nat × Bool × Nat × Nat :=
        if st.columns = 0 then (q.1, st.warn_dims, st.warn_count, q.1)
        else if st.warn_dims ∧ q.1 ≠ st.columns then
          (st.columns, false, st.warn_count + 1, st.columns)
        else (st.columns, st.warn_dims, st.warn_count, q.1)
      let st2 := { st with
        matrix := m
        recorded_counts := q.2.1
        ignored_counts := q.2.2
        columns := colsInfo.1
        warn_dims := colsInfo.2.1
        warn_count := colsInfo.2.2.1
        frame_w := colsInfo.2.2.2
        rows_accumulated := st.rows_accumulated + 1 }
      if st2.rows_accumulated = cfg.height then next_row st2 else st2
    else
      { st with ignored_counts := st.ignored_counts + sliceSum v 0 v.length }
  { st' with frame_r := st'.frame_r + 1 }

/-- Sum of a block of matrix cells (`for (i=0; i < frame_w; i++) ... v[i]`,
lines 269-273). -/
def sumCells (m : Nat → U32) (base w : Nat) : U32 :=
  ((List.range w).map (fun i => m (base + i))).sum

/-- The padding loop of `write_frame` (`while (frame_h < rows) { clear_row();
frame_h++; }`, line 287, also the zero-fill loop of line 282), written as a
counted loop on `rows - frame_h` iterations. -/
def padGo : Nat → PState → PState
  | 0, st => st
  | k + 1, st =>
      if st.frame_h < st.rows then padGo k { clear_row st with frame_h := st.frame_h + 1 }
      else st

/-- `while (frame_h < rows) { clear_row(); frame_h++; }`: the loop makes
exactly `rows - frame_h` iterations. -/
def padRows (st : PState) : PState := padGo (st.rows - st.frame_h) st

/-- The transpose index map of `mx_transpose` (lines 213-215):
`current = n*row + column` with `row = current % m`, `column = current / m`. -/
def tIdx (n m j : Nat) : Nat := n * (j % m) + j / m

/-- The do-while loop of `mx_transpose` (lines 211-216): iterate `tIdx`
starting from `i` until the value is `≥ i`.  The fuel is `n*m`, enough to
go around any cycle. -/
def firstGE (n m i : Nat) : Nat → Nat → Nat
  | 0, cur => cur
  | f + 1, cur =>
      let nxt := tIdx n m cur
      if nxt < i then firstGE n m i f nxt else nxt

/-- One iteration of the in-place transpose loop (lines 210-222). -/
def transposeStep {α : Type} (n m i : Nat) (a : Nat → α) : Nat → α :=
  let j := firstGE n m i (n * m) i
  if i < j then swapF a i j else a

/-- The in-place transpose loop (lines 209-223): `i` from 1 while
`i < n*m - 2`, written as a counted loop (the first argument is the number
of remaining iterations). -/
def transposeGo {α : Type} (n m : Nat) : Nat → Nat → (Nat → α) → Nat → α
  | 0, _, a => a
  | k + 1, i, a => transposeGo n m k (i + 1) (transposeStep n m i a)

/-- `mx_transpose` (lines 197-225) as called by `write_frame` (in place,
`b == a`): a no-op unless `n != 1 && m != 1`; the loop body runs for
`i = 1, ..., n*m - 3`. -/
def mx_transpose {α : Type} (n m : Nat) (a : Nat → α) : Nat → α :=
  if n ≠ 1 ∧ m ≠ 1 then transposeGo n m (n * m - 2 - 1) 1 a else a

/-- The partial-row policy of `write_frame` (lines 262-274). -/
def wfPartialRow (cfg : Cfg) (st : PState) : PState :=
  if cfg.savePart then
    if st.rows_accumulated ≠ 0 then { st with frame_h := st.frame_h + 1 } else st
  else if st.frame_h = 0 ∧ st.rows_accumulated ≠ 0 then
    { st with frame_h := st.frame_h + 1 }
  else
    let x := sumCells st.matrix (st.frame_h * st.frame_w) st.frame_w
    { st with recorded_counts := st.recorded_counts - x,
              ignored_counts := st.ignored_counts + x }

/-- The row-count reconciliation of `write_frame` (lines 276-289): fix
`rows` from the first frame, zero-fill a dropped frame, or pad/truncate a
mismatched one with a one-time warning. -/
def wfReconcile (st : PState) : PState :=
  if st.rows = 0 then { st with rows := st.frame_h }
  else if st.frame_h = 0 then padRows { st with frame_w := st.columns, frame_h := 0 }
  else if st.rows ≠ st.frame_h then
    let stw := if st.warn_dims
      then { st with warn_dims := false, warn_count := st.warn_count + 1 }
      else st
    { padRows stw with frame_h := stw.rows }
  else st

/-- The optional in-place transpose of `write_frame` (lines 296-300). -/
def wfTranspose (cfg : Cfg) (st : PState) : PState :=
  if cfg.doTranspose then
    { st with matrix := mx_transpose st.frame_h st.frame_w st.matrix,
              frame_w := st.frame_h, frame_h := st.frame_w }
  else st

/-- `write_frame` (lines 257-315): partial-row policy, row-count
reconciliation, optional transpose, and emission.  The second component is
the list of rows handed to the encoder (`icp_save`/`vtk_save` calls of
lines 302-314). -/
def write_frame (cfg : Cfg) (st : PState) : PState × List (List U32) :=
  let st3 := wfTranspose cfg (wfReconcile (wfPartialRow cfg st))
  (st3, (List.range st3.frame_h).map (fun i =>
    (List.range st3.frame_w).map (fun j => st3.matrix (i * st3.frame_w + j))))

/-- The effect of the tokenizer's `ACCUMULATE` macro (lines 384-389) on the
per-file counters, for all the numbers of one raw row: each emitted value is
added to `total_counts`, and `nnz` counts the nonzero ones. -/
def tokRowTotals (st : PState) (v : List U32) : PState :=
  { st with total_counts := st.total_counts + v.sum,
            nnz := st.nnz + (v.filter (fun x => x ≠ 0)).length }

/-- Processing one well-formed raw row: the tokenizer emits its values
(`ACCUMULATE`) and hands the row to `save_row`. -/
def rowStep (cfg : Cfg) (st : PState) (v : List U32) : PState :=
  save_row cfg (tokRowTotals st v) v

/-- State at the end of one frame: `next_frame`, the rows, `write_frame`
(the loop of `integrate_psd`, lines 478-488). -/
def frameEnd (cfg : Cfg) (st : PState) (rows : List (List U32)) : PState :=
  (write_frame cfg (rows.foldl (rowStep cfg) (next_frame st))).1

/-- All states observed while processing one frame: after `next_frame`,
after each row, and after `write_frame`. -/
def frameTrace (cfg : Cfg) (st : PState) (rows : List (List U32)) : List PState :=
  List.scanl (rowStep cfg) (next_frame st) rows ++ [frameEnd cfg st rows]

/-- The initial per-file state of `process_file` (lines 498-500): counters
and shape reset, the matrix keeping whatever a previous file left in it. -/
def initState (m0 : Nat → U32) : PState :=
  { matrix := m0, frame_r := 0, frame_w := 0, frame_h := 0, rows_accumulated := 0,
    total_counts := 0, recorded_counts := 0, ignored_counts := 0, nnz := 0,
    rows := 0, columns := 0, warn_dims := true, warn_count := 0 }

/-- States observed over a sequence of frames. -/
def fileTraceAux (cfg : Cfg) (st : PState) : List (List (List U32)) → List PState
  | [] => []
  | f :: fs => frameTrace cfg st f ++ fileTraceAux cfg (frameEnd cfg st f) fs

/-- All states observed while processing a well-formed file consisting of
the given frames (each frame a list of raw rows). -/
def fileTrace (cfg : Cfg) (m0 : Nat → U32) (frames : List (List (List U32))) : List PState :=
  initState m0 :: fileTraceAux cfg (initState m0) frames

/-- The accounting ledger invariant. -/
def ledger (st : PState) : Prop :=
  st.recorded_counts + st.ignored_counts = st.total_counts

/-- `isdigit` for the characters the tokenizer sees. -/
def isDigitCh (c : Char) : Bool := decide ('0' ≤ c ∧ c ≤ '9')

/-- Result of `accumulate_bins`: either a normal return to the caller, or the
`assert(have_number == 1)` of line 409 firing (which aborts the process). -/
inductive TokOut where
  | done (st : PState) (atEof : Bool)
  | assertFail (st : PState)

/-- The `ACCUMULATE` macro (lines 384-389): store the pending number in the
next bin and update `total_counts` and `nnz`. -/
def tokACCUMULATE (st : PState) (bins : Nat → U32) (b : Nat) (s : U32) :
    PState × (Nat → U32) × Nat :=
  ({ st with total_counts := st.total_counts + s,
             nnz := st.nnz + (if s ≠ 0 then 1 else 0) },
   updateF bins b s, b + 1)

/-- The first `b` entries of the `bins` array, as passed to `save_row`. -/
def binsToRow (bins : Nat → U32) (b : Nat) : List U32 := (List.range b).map bins

/-- The character loop of `accumulate_bins` (lines 396-457).  `cur` is the
unread remainder of the current line (so `cur = []` is the `'\0'` case) and
`rest` the lines not yet read; a line read when no lines remain models
`gzgets == NULL` / `gzeof`.  The `while (1)` loop is embedded with explicit
fuel; `accumulate_bins` passes one unit per input character plus one per
line, which is more than the loop can consume. -/
def tokLoop (cfg : Cfg) : Nat → PState → (Nat → U32) → Nat → U32 → Bool →
    List Char → List (List Char) → TokOut
  | 0, st, _, _, _, _, _, _ => TokOut.done st false
  | fuel + 1, st, bins, b, s, have_number, cur, rest =>
    match cur, rest with
    | [], [] =>
        if have_number then
          let acc := tokACCUMULATE st bins b s
          TokOut.done (save_row cfg acc.1 (binsToRow acc.2.1 acc.2.2)) true
        else TokOut.done st true
    | [], l :: ls => tokLoop cfg fuel st bins b s have_number l ls
    | c :: cs, rest =>
        if isDigitCh c then
          let s' : U32 := if have_number then s * 10 + (c.toNat - 48 : Nat)
            else ((c.toNat - 48 : Nat) : U32)
          tokLoop cfg fuel st bins b s' true cs rest
        else if c = ',' ∨ c = ';' then
          if have_number then
            let acc := tokACCUMULATE st bins b s
            if c = ';' then
              let st2 := save_row cfg acc.1 (binsToRow acc.2.1 acc.2.2)
              tokLoop cfg fuel st2 (fun _ => 0) 0 s false cs rest
            else
              tokLoop cfg fuel acc.1 acc.2.1 acc.2.2 s false cs rest
          else TokOut.assertFail st
        else if c = '\n' ∨ c = '\r' then
          match rest with
          | [] =>
              if have_number then
                let acc := tokACCUMULATE st bins b s
                TokOut.done (save_row cfg acc.1 (binsToRow acc.2.1 acc.2.2)) true
              else TokOut.done st true
          | l :: ls =>
              if have_number then
                let acc := tokACCUMULATE st bins b s
                TokOut.done (save_row cfg acc.1 (binsToRow acc.2.1 acc.2.2)) false
              else tokLoop cfg fuel st bins b s false l ls
        else if c.isWhitespace then
          if have_number then TokOut.done st false
          else tokLoop cfg fuel st bins b s false cs rest
        else TokOut.done st false

/-- Fuel that is always sufficient for `tokLoop`: one unit per character,
one per line, and one to spare. -/
def tokFuel (lines : List (List Char)) : Nat :=
  (lines.map List.length).sum + lines.length + 1

/-- `accumulate_bins` (lines 370-458): zero the bins, read the first line
and run the character loop. -/
def accumulate_bins (cfg : Cfg) (st : PState) (lines : List (List Char)) : TokOut :=
  match lines with
  | [] => tokLoop cfg (tokFuel []) st (fun _ => 0) 0 0 false [] []
  | l :: ls => tokLoop cfg (tokFuel (l :: ls)) st (fun _ => 0) 0 0 false l ls

/-- Whether the tokenizer aborted through the assertion of line 409. -/
def TokOut.isAssert : TokOut → Bool
  | .assertFail _ => true
  | _ => false

/-- The `total_counts` counter of the state a tokenizer run ended in. -/
def TokOut.totalOf : TokOut → U32
  | .done st _ => st.total_counts
  | .assertFail st => st.total_counts

/-- Abstraction of one input file for the batch-control model: it either
cannot be opened, or a mid-file read fails, or it processes normally. -/
inductive FileInput where
  | unopenable
  | readError
  | normal
deriving DecidableEq

/-- Control-flow outcome of one `process_file` call. -/
inductive FileResult where
  | continued
  | exitedRun (code : Nat)
deriving DecidableEq

/-- Control flow of `process_file` on one file: a failed `gzopen` is logged
and the function returns (lines 502-506); a mid-file read failure makes
`next_line` call `exit(1)` (lines 85-92), killing the whole process. -/
def process_file_io : FileInput → FileResult
  | .unopenable => .continued
  | .readError => .exitedRun 1
  | .normal => .continued

/-- The batch loop of `main` (lines 624-648): process the files in order;
a `FileResult.exitedRun` terminates the run.  Returns the number of files
attempted and the early exit code, if any. -/
def runBatch : List FileInput → Nat × Option Nat
  | [] => (0, none)
  | f :: fs =>
      match process_file_io f with
      | .continued => ((runBatch fs).1 + 1, (runBatch fs).2)
      | .exitedRun c => (1, some c)

/-- The persistent state of `icp_save` (lines 117-165): the static `line`
buffer (its meaningful prefix `line[0..c)`, which always starts with the
`' '` of line 119) and the characters written to the output file so far. -/
structure IcpSt where
  buf : List Char
  out : List Char
deriving DecidableEq

/-- `icp_save`'s state at the start of a file (line 119: `line = " "`,
`c = 1`). -/
def icpInit : IcpSt := { buf := [' '], out := [] }

/-- Lines 138-141 of `icp_save`: append the decimal digits of the next
number and a comma to the line buffer. -/
def icpPutNum (s : IcpSt) (num : Nat) : IcpSt :=
  { s with buf := s.buf ++ utoaList num ++ [','] }

/-- The `MOVE_NUMBER_TO_NEXT_LINE` macro (lines 124-131): terminate the
buffer just before the last number's digits, flush it, and restart the
buffer with `' '`, the number and a comma. -/
def icpMoveNum (s : IcpSt) (num : Nat) : IcpSt :=
  { out := s.out ++ s.buf.take (s.buf.length - ((utoaList num).length + 1)) ++ ['\n'],
    buf := ' ' :: (utoaList num ++ [',']) }

/-- Appending one (non-final) number: lines 138-147 (put, then wrap if the
line grew past 78 characters). -/
def icpStep (s : IcpSt) (num : Nat) : IcpSt :=
  let s' := icpPutNum s num
  if 78 < s'.buf.length then icpMoveNum s' num else s'

/-- The `while (1)` loop of `icp_save` (lines 134-148): put each number,
wrapping between numbers; the call's last number is put without the wrap
check (the `break`).  Also returns that last number (the C locals
`num`/`len` live on after the loop). -/
def icpLoop (s : IcpSt) : List Nat → IcpSt × Nat
  | [] => (s, 0)
  | [num] => (icpPutNum s num, num)
  | num :: rest => icpLoop (icpStep s num) rest

/-- `icp_save` (lines 117-165). -/
def icp_save (s : IcpSt) (v : List Nat) (continuation : Bool) : IcpSt :=
  let p := icpLoop s v
  if continuation then
    if 78 < p.1.buf.length then icpMoveNum p.1 p.2 else p.1
  else
    let s2 := if 78 < p.1.buf.length - 1 then icpMoveNum p.1 p.2 else p.1
    { buf := [' '], out := s2.out ++ s2.buf.dropLast ++ ['\n'] }

/-- The ICP emission loop of `write_frame` (lines 302-314): every row but
the last is a continuation. -/
def icpEmitFrame (s : IcpSt) : List (List Nat) → IcpSt
  | [] => s
  | [r] => icp_save s r false
  | r :: rest => icpEmitFrame (icp_save s r true) rest

/-- Split a character list at every occurrence of `sep` (the reader side of
the ICP round trip). -/
def splitSep (sep : Char) : List Char → List (List Char)
  | [] => [[]]
  | c :: cs =>
      match splitSep sep cs with
      | [] => [[c]]
      | p :: ps => if c = sep then [] :: p :: ps else (c :: p) :: ps

/-- One wrapped physical output line of the ICP format: a leading space,
the content, a line break. -/
def icpWrapLine (c : List Char) : List Char := ' ' :: c ++ ['\n']

/-- The comma-joined decimal record of a value sequence. -/
def icpRecord : List Nat → List Char
  | [] => []
  | [n] => decRepr n
  | n :: rest => decRepr n ++ [','] ++ icpRecord rest

/-- The encoder invariant tying an `icp_save` state to the values already
written: the output so far consists of wrapped physical lines `cs`, the
buffer is a space followed by the pending tail `B`, and lines plus tail
spell out the values written so far, each followed by a comma; every
completed line and the nonempty tail end with a comma. -/
def IcpInv (prior : List Char) (processed : List Nat) (s : IcpSt) : Prop :=
  ∃ (cs : List (List Char)) (B : List Char),
    s.buf = ' ' :: B ∧
    s.out = prior ++ (cs.map icpWrapLine).flatten ∧
    cs.flatten ++ B = (processed.map (fun n => decRepr n ++ [','])).flatten ∧
    (∀ c ∈ cs, c ≠ [] ∧ c.getLast? = some ',') ∧
    (B = [] ∨ B.getLast? = some ',')

/-- The VTK quantization of one count (line 176):
`(unsigned int)(floor(2955.0*log((double)(*v+++1))+0.5))`, modelled over the
reals.  (For `count = 2^32 - 1` the C expression `*v + 1` wraps to `0` and
takes `log(0)`; the claims below stay below that input.) -/
noncomputable def vtkCode (count : Nat) : ℤ :=
  Int.floor (2955 * Real.log (count + 1) + 1 / 2)

/-- Boolean check that within a line every `','` or `';'` is immediately
preceded by a digit (adjacent-pair condition). -/
def sepFollowsDigitB : List Char → Bool
  | a :: b :: rest => (!(b == ',' || b == ';') || isDigitCh a) && sepFollowsDigitB (b :: rest)
  | _ => true

/-- A line that never presents the tokenizer a separator without a pending
number: it does not start with `','` or `';'`, and every separator in it is
immediately preceded by a digit. -/
def goodLineB (l : List Char) : Bool :=
  (match l.head? with
   | some c => !(c == ',' || c == ';')
   | none => true) && sepFollowsDigitB l

/-! ## Helper lemmas about the decimal conversion -/

/-- The first forward `tIdx n m`-iterate of `cur` (zero or more
applications) that exceeds `t`, searched with explicit fuel; used to state
the in-place transpose's loop invariant. -/
def firstGTs (n m t : Nat) : Nat → Nat → Nat
  | 0, cur => cur
  | f + 1, cur => if t < cur then cur else firstGTs n m t f (tIdx n m cur)

/-- Where the in-place transpose keeps the value originally at cell `v`
once the loop has processed indices `1, ..., t`: at its final home
`tIdx m n v` as soon as that is `≤ t`, and otherwise at the first forward
`tIdx n m`-iterate of `v` exceeding `t`. -/
def posSpec (n m t v : Nat) : Nat :=
  if tIdx m n v ≤ t then tIdx m n v else firstGTs n m t (2 * (n * m) + 1) v

/-- The loop invariant of the in-place transpose acting on the
identity-content array: every cell label `v` below `n*m` currently sits at
`posSpec n m t v`. -/
def TposInv (n m t : Nat) (a : Nat → Nat) : Prop :=
  ∀ v < n * m, a (posSpec n m t v) = v

theorem decRepr_ne_nil (u : Nat) : decRepr u ≠ [] := by
  rw [decRepr]; split <;> simp

theorem decRepr_of_lt (u : Nat) (h : u < 10) : decRepr u = [digitChar u] := by
  rw [decRepr]; simp [h]

theorem decRepr_of_ge (u : Nat) (h : 10 ≤ u) :
    decRepr u = decRepr (u / 10) ++ [digitChar (u % 10)] := by
  rw [decRepr]; rw [dif_neg (by omega)]

theorem mem_decRepr (u : Nat) : ∀ c ∈ decRepr u, ∃ d, d < 10 ∧ c = digitChar d := by
  induction u using Nat.strong_induction_on with
  | _ u ih =>
    rw [decRepr]
    split
    · next h => intro c hc; simp only [List.mem_singleton] at hc; exact ⟨u, h, hc⟩
    · next h =>
      intro c hc
      rcases List.mem_append.mp hc with hc | hc
      · exact ih (u / 10) (Nat.div_lt_self (by omega) (by omega)) c hc
      · exact ⟨u % 10, Nat.mod_lt _ (by omega), List.mem_singleton.mp hc⟩

theorem digitChar_ne (d : Nat) (h : d < 10) :
    digitChar d ≠ ',' ∧ digitChar d ≠ ';' ∧ digitChar d ≠ '\n' ∧ digitChar d ≠ ' ' := by
  interval_cases d <;> exact ⟨by decide, by decide, by decide, by decide⟩

theorem decRepr_length_le (k : Nat) : ∀ u, 0 < k → u < 10 ^ k → (decRepr u).length ≤ k := by
  induction k with
  | zero => omega
  | succ k ih =>
    intro u _ hu
    rw [decRepr]
    split
    · simp
    · next hge =>
      have hk0 : 0 < k := by
        rcases Nat.eq_zero_or_pos k with rfl | h
        · simp at hu; omega
        · exact h
      have hdiv : u / 10 < 10 ^ k := by
        rw [Nat.div_lt_iff_lt_mul (by omega)]
        calc u < 10 ^ (k + 1) := hu
        _ = 10 ^ k * 10 := by ring
      have := ih (u / 10) hk0 hdiv
      simp only [List.length_append, List.length_singleton]
      omega

theorem utoaLoop_zero (fuel : Nat) (a : Nat → Char) (l : Nat) :
    utoaLoop fuel 0 a l = (a, l) := by
  cases fuel <;> simp [utoaLoop]

theorem utoaLoop_spec : ∀ (fuel u : Nat), 0 < u → u ≤ fuel →
    ∀ (a : Nat → Char) (l : Nat),
    (utoaLoop fuel u a l).2 = l + (decRepr u).length ∧
    (∀ j, j < l → (utoaLoop fuel u a l).1 j = a j) ∧
    (∀ j, l + (decRepr u).length ≤ j → (utoaLoop fuel u a l).1 j = a j) ∧
    (List.range (decRepr u).length).map (fun k => (utoaLoop fuel u a l).1 (l + k))
      = (decRepr u).reverse := by
  intro fuel
  induction fuel with
  | zero => omega
  | succ fuel ih =>
    intro u hu hf a l
    have hstep : utoaLoop (fuel + 1) u a l
        = utoaLoop fuel (u / 10) (updateF a l (digitChar (u % 10))) (l + 1) := by
      show (if u = 0 then (a, l)
        else utoaLoop fuel (u / 10) (updateF a l (digitChar (u % 10))) (l + 1)) = _
      rw [if_neg (by omega)]
    rw [hstep]
    by_cases hu10 : u < 10
    · have hdiv : u / 10 = 0 := Nat.div_eq_of_lt hu10
      have hmod : u % 10 = u := Nat.mod_eq_of_lt hu10
      rw [hdiv, utoaLoop_zero, decRepr_of_lt u hu10, hmod]
      refine ⟨by simp, fun j hj => ?_, fun j hj => ?_, ?_⟩
      · simp only [updateF]; rw [if_neg (by omega)]
      · simp only [updateF, List.length_singleton] at hj ⊢
        rw [if_neg (by omega)]
      · rw [show List.range [digitChar u].length = [0] from rfl]
        simp [updateF]
    · have h10 : 10 ≤ u := by omega
      have hd : 0 < u / 10 := Nat.div_pos h10 (by omega)
      obtain ⟨h1, h2, h3, h4⟩ := ih (u / 10) hd (by omega)
        (updateF a l (digitChar (u % 10))) (l + 1)
      rw [decRepr_of_ge u h10]
      simp only [List.length_append, List.length_singleton]
      refine ⟨by omega, fun j hj => ?_, fun j hj => ?_, ?_⟩
      · rw [h2 j (by omega)]; simp only [updateF]; rw [if_neg (by omega)]
      · rw [h3 j (by omega)]; simp only [updateF]; rw [if_neg (by omega)]
      · rw [List.range_succ_eq_map, List.map_cons, List.map_map]
        have hl : (utoaLoop fuel (u / 10) (updateF a l (digitChar (u % 10))) (l + 1)).1 l
            = digitChar (u % 10) := by
          rw [h2 l (by omega)]; simp [updateF]
        rw [List.reverse_append]
        simp only [List.reverse_singleton, List.singleton_append, Nat.add_zero, hl]
        congr 1
        have hcomp : ((fun k =>
              (utoaLoop fuel (u / 10) (updateF a l (digitChar (u % 10))) (l + 1)).1
              (l + k)) ∘ Nat.succ)
            = fun k => (utoaLoop fuel (u / 10) (updateF a l (digitChar (u % 10))) (l + 1)).1
              (l + 1 + k) := by
          funext k
          simp only [Function.comp_apply]
          have harg : l + Nat.succ k = l + 1 + k := by omega
          rw [harg]
        rw [hcomp, h4]

theorem revLoop_apply {α : Type} (l : Nat) : ∀ (i : Nat) (a : Nat → α), 2 * i ≤ l → ∀ j,
    revLoop l i a j = if j < i ∨ (l - i ≤ j ∧ j < l) then a (l - 1 - j) else a j := by
  intro i
  induction i with
  | zero =>
    intro a _ j
    rw [if_neg (by omega)]
    rfl
  | succ i ih =>
    intro a h j
    show revLoop l i (swapF a (l - (i + 1)) i) j = _
    rw [ih _ (by omega) j]
    simp only [swapF]
    split_ifs <;> first | rfl | (congr 1; omega) | omega | (exfalso; omega)

theorem revLoop_mirror {α : Type} (l : Nat) (a : Nat → α) (j : Nat) (hj : j < l) :
    revLoop l (l / 2) a j = a (l - 1 - j) := by
  rw [revLoop_apply l (l / 2) a (by omega) j]
  by_cases hc : j < l / 2 ∨ (l - l / 2 ≤ j ∧ j < l)
  · rw [if_pos hc]
  · rw [if_neg hc]
    congr 1
    omega

theorem map_range_mirror {α : Type} (f : Nat → α) : ∀ l,
    (List.range l).map (fun j => f (l - 1 - j)) = ((List.range l).map f).reverse := by
  intro l
  induction l with
  | zero => simp
  | succ l ih =>
    conv_rhs => rw [List.range_succ]
    rw [List.range_succ_eq_map, List.map_cons, List.map_map, List.map_append,
      List.reverse_append]
    simp only [Nat.add_sub_cancel, Nat.sub_zero, List.map_singleton, List.reverse_singleton,
      List.singleton_append]
    congr 1
    rw [← ih]
    apply List.map_congr_left
    intro k hk
    simp only [Function.comp_apply, Nat.add_sub_cancel]
    congr 1
    simp only [List.mem_range] at hk
    omega

theorem utoa_spec (u : Nat) (a : Nat → Char) :
    (List.range (utoa u a).2).map (utoa u a).1 = decRepr u ∧
    (utoa u a).2 = (decRepr u).length ∧
    (∀ j, (decRepr u).length ≤ j → (utoa u a).1 j = a j) := by
  rcases Nat.eq_zero_or_pos u with rfl | hu
  · have h0 : utoaLoop 0 0 a 0 = (a, 0) := rfl
    have hd : decRepr 0 = [digitChar 0] := decRepr_of_lt 0 (by omega)
    have hua : utoa 0 a = (updateF a 0 (digitChar 0), 1) := by
      simp [utoa, h0]
    rw [hua, hd]
    refine ⟨?_, rfl, ?_⟩
    · rw [show List.range 1 = [0] from rfl]
      simp [updateF]
    · intro j hj
      simp only [List.length_singleton] at hj
      simp only [updateF]
      rw [if_neg (by omega)]
  · obtain ⟨h1, h2, h3, h4⟩ := utoaLoop_spec u u hu (le_refl u) a 0
    simp only [Nat.zero_add] at h1 h3
    have h4' : (List.range (decRepr u).length).map (utoaLoop u u a 0).1
        = (decRepr u).reverse := by
      rw [← h4]
      apply List.map_congr_left
      intro k _
      simp
    have hlen : 0 < (decRepr u).length := List.length_pos.mpr (decRepr_ne_nil u)
    by_cases hone : (decRepr u).length = 1
    · have hua : utoa u a = utoaLoop u u a 0 := by
        simp only [utoa]
        rw [if_neg (show ¬ (utoaLoop u u a 0).2 = 0 by omega),
          if_neg (show ¬ 1 < (utoaLoop u u a 0).2 by omega)]
      refine ⟨?_, ?_, ?_⟩
      · rw [hua, h1]
        obtain ⟨c, hc⟩ := List.length_eq_one.mp hone
        rw [hc] at h4' ⊢
        simpa using h4'
      · rw [hua]; exact h1
      · intro j hj; rw [hua]; exact h3 j hj
    · have hua : utoa u a = (revLoop (utoaLoop u u a 0).2 ((utoaLoop u u a 0).2 / 2)
          (utoaLoop u u a 0).1, (utoaLoop u u a 0).2) := by
        simp only [utoa]
        rw [if_neg (show ¬ (utoaLoop u u a 0).2 = 0 by omega),
          if_pos (show 1 < (utoaLoop u u a 0).2 by omega)]
      refine ⟨?_, ?_, ?_⟩
      · rw [hua]
        show (List.range (utoaLoop u u a 0).2).map
          (revLoop (utoaLoop u u a 0).2 ((utoaLoop u u a 0).2 / 2) (utoaLoop u u a 0).1) = decRepr u
        rw [h1]
        have hmap : (List.range (decRepr u).length).map
            (revLoop (decRepr u).length ((decRepr u).length / 2) (utoaLoop u u a 0).1)
            = (List.range (decRepr u).length).map
              (fun j => (utoaLoop u u a 0).1 ((decRepr u).length - 1 - j)) := by
          apply List.map_congr_left
          intro j hj
          exact revLoop_mirror _ _ j (List.mem_range.mp hj)
        rw [hmap, map_range_mirror, h4', List.reverse_reverse]
      · rw [hua]; exact h1
      · intro j hj
        rw [hua]
        show revLoop (utoaLoop u u a 0).2 ((utoaLoop u u a 0).2 / 2) (utoaLoop u u a 0).1 j = a j
        rw [h1]
        rw [revLoop_apply _ _ _ (show 2 * ((decRepr u).length / 2) ≤ (decRepr u).length
          by omega) j]
        rw [if_neg (show ¬ (j < (decRepr u).length / 2 ∨
          ((decRepr u).length - (decRepr u).length / 2 ≤ j ∧ j < (decRepr u).length))
          by omega)]
        exact h3 j hj

theorem digitChar_toNat (d : Nat) (h : d < 10) : (digitChar d).toNat = 48 + d := by
  interval_cases d <;> decide

theorem decRepr_foldl (u : Nat) :
    (decRepr u).foldl (fun acc c => 10 * acc + (c.toNat - 48)) 0 = u := by
  induction u using Nat.strong_induction_on with
  | _ u ih =>
    by_cases h : u < 10
    · rw [decRepr_of_lt u h]
      simp [digitChar_toNat u h]
    · rw [decRepr_of_ge u (by omega), List.foldl_append]
      rw [ih (u / 10) (Nat.div_lt_self (by omega) (by omega))]
      simp only [List.foldl_cons, List.foldl_nil]
      rw [digitChar_toNat (u % 10) (Nat.mod_lt _ (by omega))]
      omega

theorem decRepr_leading (u : Nat) (hu : 0 < u) : (decRepr u).head? ≠ some (digitChar 0) := by
  induction u using Nat.strong_induction_on with
  | _ u ih =>
    by_cases h : u < 10
    · rw [decRepr_of_lt u h]
      intro hc
      simp only [List.head?_cons, Option.some_inj] at hc
      have := congrArg Char.toNat hc
      rw [digitChar_toNat u h, digitChar_toNat 0 (by omega)] at this
      omega
    · rcases hxs : decRepr (u / 10) with _ | ⟨x, xs⟩
      · exact absurd hxs (decRepr_ne_nil _)
      · rw [decRepr_of_ge u (by omega), hxs, List.cons_append, List.head?_cons]
        have hih := ih (u / 10) (Nat.div_lt_self (by omega) (by omega))
          (Nat.div_pos (by omega) (by omega))
        rw [hxs, List.head?_cons] at hih
        exact hih

/-- The characters `utoa` produces are exactly the mathematical decimal
representation; this equation is the bridge used by the ICP encoder
lemmas. -/
theorem utoaList_eq_decRepr (u : Nat) : utoaList u = decRepr u :=
  (utoa_spec u (fun _ => ' ')).1

/-- C10: for every unsigned integer `u`, `utoa(u, a)` writes into `a`
exactly the standard decimal representation of `u` (most significant digit
first, the single digit `'0'` for `u = 0`, no leading zeros otherwise),
returns the number of characters written, and leaves the rest of the buffer
untouched.  `decRepr` is pinned down as the standard representation by the
digit-value identity and the no-leading-zero property. -/
theorem c10_utoa_decimal (u : Nat) (a : Nat → Char) :
    (List.range (utoa u a).2).map (utoa u a).1 = decRepr u ∧
    (utoa u a).2 = (decRepr u).length ∧
    (∀ j, (decRepr u).length ≤ j → (utoa u a).1 j = a j) ∧
    (decRepr u).foldl (fun acc c => 10 * acc + (c.toNat - 48)) 0 = u ∧
    (0 < u → (decRepr u).head? ≠ some (digitChar 0)) :=
  ⟨(utoa_spec u a).1, (utoa_spec u a).2.1, (utoa_spec u a).2.2, decRepr_foldl u,
   fun hu => decRepr_leading u hu⟩

/-- Witness for C10 at `u = 90210`. -/
theorem c10_witness :
    (List.range (utoa 90210 (fun _ => ' ')).2).map (utoa 90210 (fun _ => ' ')).1
      = decRepr 90210 ∧
    (utoa 90210 (fun _ => ' ')).1 9 = ' ' ∧
    (decRepr 90210).head? ≠ some (digitChar 0) :=
  ⟨(c10_utoa_decimal 90210 (fun _ => ' ')).1,
   (c10_utoa_decimal 90210 (fun _ => ' ')).2.2.1 9
     (by rw [← utoaList_eq_decRepr]; decide),
   (c10_utoa_decimal 90210 (fun _ => ' ')).2.2.2.2 (by norm_num)⟩

theorem log_4294967295_bounds :
    (22.18064 : ℝ) < Real.log 4294967295 ∧ Real.log 4294967295 < 22.18080 := by
  have hlog2u : Real.log 2 < 0.6931471808 := Real.log_two_lt_d9
  have hlog2l : (0.6931471803 : ℝ) < Real.log 2 := Real.log_two_gt_d9
  have h32 : Real.log 4294967296 = 32 * Real.log 2 := by
    rw [show (4294967296 : ℝ) = 2 ^ 32 by norm_num, Real.log_pow]
    norm_num
  constructor
  · have hdiv : Real.log ((4294967296 : ℝ) / 4294967295) ≤ 4294967296 / 4294967295 - 1 :=
      Real.log_le_sub_one_of_pos (by norm_num)
    have hsplit : Real.log ((4294967296 : ℝ) / 4294967295)
        = Real.log 4294967296 - Real.log 4294967295 :=
      Real.log_div (by norm_num) (by norm_num)
    have hval : ((4294967296 : ℝ) / 4294967295 - 1) ≤ 0.000000001 := by norm_num
    nlinarith [hdiv, hsplit, hval, h32, hlog2l]
  · have h1 : Real.log 4294967295 < Real.log 4294967296 :=
      Real.log_lt_log (by norm_num) (by norm_num)
    nlinarith [h1, h32, hlog2u]

/-- C3 (code bug): at the valid 32-bit count `4294967294`, the VTK
quantization code is `65544`, which exceeds the 16-bit range `[0, 65535]`
promised by the spec, by the comment on line 175 (`compression of 32 bits
into 16`) and by the `unsigned_short` scalar type the VTK header declares
(line 557). -/
theorem c3_vtk_code_overflow :
    vtkCode 4294967294 = 65544 ∧ 65535 < vtkCode 4294967294 := by
  have harg : ((4294967294 : Nat) : ℝ) + 1 = 4294967295 := by norm_num
  obtain ⟨hlo, hup⟩ := log_4294967295_bounds
  have hfloor : vtkCode 4294967294 = 65544 := by
    unfold vtkCode
    rw [harg, Int.floor_eq_iff]
    constructor
    · push_cast
      nlinarith [hlo]
    · push_cast
      nlinarith [hup]
  exact ⟨hfloor, by rw [hfloor]; norm_num⟩

/-- C5 (code bug): feeding the tokenizer the eleven-character digit string
`4294967296` (that is, `2^32`), the digit-by-digit accumulation
`s = s*10 + c - '0'` of line 401 silently wraps modulo `2^32`: the token is
emitted with value `0`, so `total_counts` ends at `0` even though a nonzero
count was present in the input. -/
theorem c5_token_wraparound :
    TokOut.totalOf (accumulate_bins ⟨1, 1000000, 0, 1000000, 0, 1000000, false, false⟩
      (initState (fun _ => 0))
      [['4', '2', '9', '4', '9', '6', '7', '2', '9', '6', '\n']]) = 0 ∧
    TokOut.isAssert (accumulate_bins ⟨1, 1000000, 0, 1000000, 0, 1000000, false, false⟩
      (initState (fun _ => 0))
      [['4', '2', '9', '4', '9', '6', '7', '2', '9', '6', '\n']]) = false := by
  constructor <;> decide

/-- C4 (counterexample): on a line that begins with a separator, the
tokenizer hits `assert(have_number == 1)` (line 409) and the process
aborts, contradicting the claim that a separator with no pending number
never aborts the program. -/
theorem c4_separator_asserts :
    TokOut.isAssert (accumulate_bins ⟨1, 1000000, 0, 1000000, 0, 1000000, false, false⟩
      (initState (fun _ => 0)) [[',', '1', ';', '\n']]) = true := by
  decide

theorem sepB_tail {c : Char} {cs : List Char} (h : sepFollowsDigitB (c :: cs) = true) :
    sepFollowsDigitB cs = true := by
  cases cs with
  | nil => rfl
  | cons b rest =>
    simp only [sepFollowsDigitB, Bool.and_eq_true] at h
    exact h.2

theorem sepB_pair {c b : Char} {rest : List Char}
    (h : sepFollowsDigitB (c :: b :: rest) = true) (hb : b = ',' ∨ b = ';') :
    isDigitCh c = true := by
  simp only [sepFollowsDigitB, Bool.and_eq_true, Bool.or_eq_true, Bool.not_eq_true'] at h
  rcases h.1 with h1 | h1
  · exfalso
    rcases hb with rfl | rfl <;> simp at h1
  · exact h1

theorem goodLineB_sep {l : List Char} (h : goodLineB l = true) :
    sepFollowsDigitB l = true := by
  simp only [goodLineB, Bool.and_eq_true] at h
  exact h.2

theorem goodLineB_head {l : List Char} (h : goodLineB l = true) :
    ∀ c, l.head? = some c → ¬(c = ',' ∨ c = ';') := by
  simp only [goodLineB, Bool.and_eq_true] at h
  intro c hc hsep
  have h1 := h.1
  rw [hc] at h1
  simp only [Bool.not_eq_true', Bool.or_eq_false_iff] at h1
  rcases hsep with rfl | rfl
  · simpa using h1.1
  · simpa using h1.2

theorem isDigitCh_comma : isDigitCh ',' = false := by decide

theorem isDigitCh_semi : isDigitCh ';' = false := by decide

theorem tokLoop_no_assert (cfg : Cfg) : ∀ (fuel : Nat) (st : PState) (bins : Nat → U32)
    (b : Nat) (s : U32) (hn : Bool) (cur : List Char) (rest : List (List Char)),
    sepFollowsDigitB cur = true →
    (∀ c, cur.head? = some c → (c = ',' ∨ c = ';') → hn = true) →
    (∀ l ∈ rest, goodLineB l = true) →
    TokOut.isAssert (tokLoop cfg fuel st bins b s hn cur rest) = false := by
  intro fuel
  induction fuel with
  | zero => intro st bins b s hn cur rest _ _ _; rfl
  | succ fuel ih =>
    intro st bins b s hn cur rest hsep hhead hrest
    have hheadNext : ∀ (x : Char) (xs : List Char), cur = x :: xs → isDigitCh x = false →
        ∀ c, xs.head? = some c → (c = ',' ∨ c = ';') → False := by
      intro x xs hcur hx c hc hcsep
      cases xs with
      | nil => simp at hc
      | cons y ys =>
        simp only [List.head?_cons, Option.some_inj] at hc
        subst hc
        rw [hcur] at hsep
        rw [sepB_pair hsep hcsep] at hx
        simp at hx
    cases cur with
    | nil =>
      cases rest with
      | nil =>
        simp only [tokLoop]
        split <;> rfl
      | cons l ls =>
        simp only [tokLoop]
        apply ih
        · exact goodLineB_sep (hrest l (by simp))
        · intro c hc hcsep
          exact absurd hcsep (goodLineB_head (hrest l (by simp)) c hc)
        · intro l2 hl2
          exact hrest l2 (by simp [hl2])
    | cons c cs =>
      cases rest with
      | nil =>
        simp only [tokLoop]
        split_ifs with h1 h2 h3 h4 h5 h6 h7 h8 h9
        · exact ih _ _ _ _ _ _ _ (sepB_tail hsep) (fun _ _ _ => rfl)
            (fun l2 hl2 => by simp at hl2)
        · exact ih _ _ _ _ _ _ _ (sepB_tail hsep) (fun _ _ _ => rfl)
            (fun l2 hl2 => by simp at hl2)
        · refine ih _ _ _ _ _ _ _ (sepB_tail hsep) ?_ (fun l2 hl2 => by simp at hl2)
          intro c2 hc2 hc2sep
          exact (hheadNext c cs rfl (by rcases h3 with rfl | rfl <;> decide) c2 hc2 hc2sep).elim
        · refine ih _ _ _ _ _ _ _ (sepB_tail hsep) ?_ (fun l2 hl2 => by simp at hl2)
          intro c2 hc2 hc2sep
          exact (hheadNext c cs rfl (by rcases h3 with rfl | rfl <;> decide) c2 hc2 hc2sep).elim
        · exact absurd (hhead c rfl h3) h4
        · rfl
        · rfl
        · rfl
        · refine ih _ _ _ _ _ _ _ (sepB_tail hsep) ?_ (fun l2 hl2 => by simp at hl2)
          intro c2 hc2 hc2sep
          exact (hheadNext c cs rfl (by simpa using h1) c2 hc2 hc2sep).elim
        · rfl
      | cons l ls =>
        simp only [tokLoop]
        split_ifs with h1 h2 h3 h4 h5 h6 h7 h8 h9
        · exact ih _ _ _ _ _ _ _ (sepB_tail hsep) (fun _ _ _ => rfl) hrest
        · exact ih _ _ _ _ _ _ _ (sepB_tail hsep) (fun _ _ _ => rfl) hrest
        · refine ih _ _ _ _ _ _ _ (sepB_tail hsep) ?_ hrest
          intro c2 hc2 hc2sep
          exact (hheadNext c cs rfl (by rcases h3 with rfl | rfl <;> decide) c2 hc2 hc2sep).elim
        · refine ih _ _ _ _ _ _ _ (sepB_tail hsep) ?_ hrest
          intro c2 hc2 hc2sep
          exact (hheadNext c cs rfl (by rcases h3 with rfl | rfl <;> decide) c2 hc2 hc2sep).elim
        · exact absurd (hhead c rfl h3) h4
        · rfl
        · refine ih _ _ _ _ _ _ _ (goodLineB_sep (hrest l (by simp))) ?_
            (fun l2 hl2 => hrest l2 (by simp [hl2]))
          intro c2 hc2 hc2sep
          exact absurd hc2sep (goodLineB_head (hrest l (by simp)) c2 hc2)
        · rfl
        · refine ih _ _ _ _ _ _ _ (sepB_tail hsep) ?_ hrest
          intro c2 hc2 hc2sep
          exact (hheadNext c cs rfl (by simpa using h1) c2 hc2 hc2sep).elim
        · rfl

/-- C4 (amended): the tokenizer never aborts on an input in which every
`','`/`';'` is immediately preceded by a digit; in particular the assertion
of line 409 cannot fire on such inputs, whatever the configuration and
prior state. -/
theorem c4_no_abort_when_separators_follow_digits (cfg : Cfg) (st : PState)
    (lines : List (List Char)) (hlines : ∀ l ∈ lines, goodLineB l = true) :
    TokOut.isAssert (accumulate_bins cfg st lines) = false := by
  cases lines with
  | nil => rfl
  | cons l ls =>
    apply tokLoop_no_assert
    · exact goodLineB_sep (hlines l (by simp))
    · intro c hc hcsep
      exact absurd hcsep (goodLineB_head (hlines l (by simp)) c hc)
    · intro l2 hl2
      exact hlines l2 (by simp [hl2])

/-- Witness for the amended C4 on a concrete well-separated input. -/
theorem c4_witness :
    (∀ l ∈ [['1', ',', '2', ';', '\n'], ['3', '\n']], goodLineB l = true) ∧
    TokOut.isAssert (accumulate_bins ⟨1, 1000000, 0, 1000000, 0, 1000000, false, false⟩
      (initState (fun _ => 0)) [['1', ',', '2', ';', '\n'], ['3', '\n']]) = false :=
  ⟨by decide, c4_no_abort_when_separators_follow_digits _ _ _ (by decide)⟩

/-- C6 (counterexample): in a two-file batch whose first file hits a
mid-file read failure, `next_line` exits the whole process with status 1:
only one file is attempted and the second is never processed, unlike a
healthy batch which attempts both. -/
theorem c6_read_error_kills_batch :
    runBatch [FileInput.readError, FileInput.normal] = (1, some 1) ∧
    runBatch [FileInput.normal, FileInput.normal] = (2, none) := by
  constructor <;> rfl

/-- C6 (amended): a file-open failure aborts only the current file and the
batch continues with the remaining files, but a mid-file read failure
terminates the entire run with exit status 1 and the remaining files are
never attempted. -/
theorem c6_open_fail_continues_read_fail_exits (rest : List FileInput) :
    runBatch (FileInput.unopenable :: rest)
      = ((runBatch rest).1 + 1, (runBatch rest).2) ∧
    runBatch (FileInput.readError :: rest) = (1, some 1) := by
  constructor <;> rfl

theorem binLoop_rec (width base : Nat) : ∀ (slice : List U32) (m : Nat → U32)
    (bin w : Nat) (rec : U32),
    (binLoop width base slice m bin w rec).2.2.2 = rec + slice.sum := by
  intro slice
  induction slice with
  | nil => intro m bin w rec; simp [binLoop]
  | cons x rest ih =>
    intro m bin w rec
    simp only [binLoop, List.sum_cons]
    split_ifs <;> rw [ih] <;> ring

theorem take_min_length (v : List U32) (a : Nat) : v.take (min a v.length) = v.take a := by
  rcases Nat.le_total a v.length with h | h
  · rw [Nat.min_eq_left h]
  · rw [Nat.min_eq_right h, List.take_length, List.take_of_length_le h]

theorem sliceSum_all (v : List U32) : sliceSum v 0 v.length = v.sum := by
  simp [sliceSum]

theorem slice_partition (v : List U32) (a b : Nat) (hab : a ≤ b) :
    sliceSum v 0 (min a v.length) + ((v.take b).drop a).sum + sliceSum v b v.length
      = v.sum := by
  simp only [sliceSum, List.drop_zero, List.take_length]
  rw [take_min_length]
  have h1 : v.take b = (v.take b).take a ++ (v.take b).drop a := (List.take_append_drop _ _).symm
  have h2 : (v.take b).take a = v.take a := by
    rw [List.take_take, Nat.min_eq_left hab]
  have h3 : v = v.take b ++ v.drop b := (List.take_append_drop _ _).symm
  calc (v.take a).sum + ((v.take b).drop a).sum + (v.drop b).sum
      = ((v.take b).take a ++ (v.take b).drop a).sum + (v.drop b).sum := by
        rw [List.sum_append, h2]
    _ = (v.take b).sum + (v.drop b).sum := by rw [← h1]
    _ = v.sum := by rw [← List.sum_append, ← h3]

theorem save_row_ledger (cfg : Cfg) (hx : cfg.xstart ≤ cfg.xstop) (st : PState)
    (v : List U32) :
    (save_row cfg st v).recorded_counts + (save_row cfg st v).ignored_counts
      = st.recorded_counts + st.ignored_counts + v.sum := by
  have hb := binLoop_rec cfg.width (st.frame_h * st.frame_w)
    ((v.take (cfg.xstop + 1)).drop cfg.xstart) st.matrix 0 0 st.recorded_counts
  have hpart := slice_partition v cfg.xstart (cfg.xstop + 1) (by omega)
  simp only [save_row]
  split_ifs <;> simp only [next_row] <;>
    first
      | (rw [sliceSum_all]; ring)
      | (rw [hb, ← hpart]; simp only [sliceSum]; ring)

theorem padGo_counters : ∀ (k : Nat) (st : PState),
    (padGo k st).recorded_counts = st.recorded_counts ∧
    (padGo k st).ignored_counts = st.ignored_counts ∧
    (padGo k st).total_counts = st.total_counts ∧
    (padGo k st).warn_count = st.warn_count ∧
    (padGo k st).rows = st.rows ∧
    (padGo k st).columns = st.columns ∧
    (padGo k st).warn_dims = st.warn_dims ∧
    (padGo k st).frame_w = st.frame_w ∧
    (padGo k st).nnz = st.nnz := by
  intro k
  induction k with
  | zero => intro st; exact ⟨rfl, rfl, rfl, rfl, rfl, rfl, rfl, rfl, rfl⟩
  | succ k ih =>
    intro st
    simp only [padGo]
    split_ifs with h
    · simpa [clear_row] using ih { clear_row st with frame_h := st.frame_h + 1 }
    · exact ⟨rfl, rfl, rfl, rfl, rfl, rfl, rfl, rfl, rfl⟩

theorem padGo_rec (k : Nat) (st : PState) :
    (padGo k st).recorded_counts = st.recorded_counts := (padGo_counters k st).1

theorem padGo_ign (k : Nat) (st : PState) :
    (padGo k st).ignored_counts = st.ignored_counts := (padGo_counters k st).2.1

theorem padGo_tot (k : Nat) (st : PState) :
    (padGo k st).total_counts = st.total_counts := (padGo_counters k st).2.2.1

theorem wfPartialRow_ledger (cfg : Cfg) (st : PState) :
    (wfPartialRow cfg st).recorded_counts + (wfPartialRow cfg st).ignored_counts
      = st.recorded_counts + st.ignored_counts ∧
    (wfPartialRow cfg st).total_counts = st.total_counts := by
  simp only [wfPartialRow]
  split_ifs <;> exact ⟨by ring, rfl⟩

theorem wfReconcile_ledger (st : PState) :
    (wfReconcile st).recorded_counts + (wfReconcile st).ignored_counts
      = st.recorded_counts + st.ignored_counts ∧
    (wfReconcile st).total_counts = st.total_counts := by
  simp only [wfReconcile, padRows]
  split_ifs <;> simp only [padGo_rec, padGo_ign, padGo_tot] <;>
    exact ⟨by first | trivial | ring, by first | trivial | rfl⟩

theorem wfTranspose_ledger (cfg : Cfg) (st : PState) :
    (wfTranspose cfg st).recorded_counts + (wfTranspose cfg st).ignored_counts
      = st.recorded_counts + st.ignored_counts ∧
    (wfTranspose cfg st).total_counts = st.total_counts := by
  simp only [wfTranspose]
  split_ifs <;> exact ⟨rfl, rfl⟩

theorem write_frame_ledger (cfg : Cfg) (st : PState) :
    (write_frame cfg st).1.recorded_counts + (write_frame cfg st).1.ignored_counts
      = st.recorded_counts + st.ignored_counts ∧
    (write_frame cfg st).1.total_counts = st.total_counts := by
  have h1 := wfPartialRow_ledger cfg st
  have h2 := wfReconcile_ledger (wfPartialRow cfg st)
  have h3 := wfTranspose_ledger cfg (wfReconcile (wfPartialRow cfg st))
  refine ⟨?_, ?_⟩
  · show (wfTranspose cfg (wfReconcile (wfPartialRow cfg st))).recorded_counts
      + (wfTranspose cfg (wfReconcile (wfPartialRow cfg st))).ignored_counts = _
    rw [h3.1, h2.1, h1.1]
  · show (wfTranspose cfg (wfReconcile (wfPartialRow cfg st))).total_counts = _
    rw [h3.2, h2.2, h1.2]

theorem save_row_total (cfg : Cfg) (st : PState) (v : List U32) :
    (save_row cfg st v).total_counts = st.total_counts := by
  simp only [save_row]
  split_ifs <;> rfl

theorem rowStep_ledger (cfg : Cfg) (hx : cfg.xstart ≤ cfg.xstop) (st : PState)
    (v : List U32) (h : ledger st) : ledger (rowStep cfg st v) := by
  unfold ledger rowStep at *
  rw [save_row_ledger cfg hx, save_row_total]
  show st.recorded_counts + st.ignored_counts + v.sum
    = (tokRowTotals st v).total_counts
  rw [h]
  rfl

theorem next_frame_ledger (st : PState) (h : ledger st) : ledger (next_frame st) := h

theorem foldl_ledger (cfg : Cfg) (hx : cfg.xstart ≤ cfg.xstop) :
    ∀ (rows : List (List U32)) (st : PState), ledger st →
    ledger (rows.foldl (rowStep cfg) st) := by
  intro rows
  induction rows with
  | nil => intro st h; exact h
  | cons r rs ih =>
    intro st h
    exact ih (rowStep cfg st r) (rowStep_ledger cfg hx st r h)

theorem scanl_ledger (cfg : Cfg) (hx : cfg.xstart ≤ cfg.xstop) :
    ∀ (rows : List (List U32)) (st : PState), ledger st →
    ∀ s ∈ List.scanl (rowStep cfg) st rows, ledger s := by
  intro rows
  induction rows with
  | nil =>
    intro st h s hs
    simp only [List.scanl, List.mem_singleton] at hs
    rwa [hs]
  | cons r rs ih =>
    intro st h s hs
    rw [List.scanl] at hs
    rcases List.mem_cons.mp hs with rfl | hs
    · exact h
    · exact ih (rowStep cfg st r) (rowStep_ledger cfg hx st r h) s hs

theorem frameEnd_ledger (cfg : Cfg) (hx : cfg.xstart ≤ cfg.xstop) (st : PState)
    (rows : List (List U32)) (h : ledger st) : ledger (frameEnd cfg st rows) := by
  unfold frameEnd ledger
  have h2 := foldl_ledger cfg hx rows (next_frame st) (next_frame_ledger st h)
  have h3 := write_frame_ledger cfg (rows.foldl (rowStep cfg) (next_frame st))
  rw [h3.1, h3.2]
  exact h2

theorem frameTrace_ledger (cfg : Cfg) (hx : cfg.xstart ≤ cfg.xstop) (st : PState)
    (rows : List (List U32)) (h : ledger st) :
    ∀ s ∈ frameTrace cfg st rows, ledger s := by
  intro s hs
  unfold frameTrace at hs
  rcases List.mem_append.mp hs with hs | hs
  · exact scanl_ledger cfg hx rows (next_frame st) (next_frame_ledger st h) s hs
  · rw [List.mem_singleton.mp hs]
    exact frameEnd_ledger cfg hx st rows h

/-- C1: for every configuration with a well-formed pixel window, every
initial matrix and every well-formed input file (a list of frames, each a
list of raw rows), the accounting equality
`recorded_counts + ignored_counts = total_counts` (in the wrapping 32-bit
arithmetic of the C counters) holds at the start of the file, after every
row is binned, after every frame is finalized, and hence at file end. -/
theorem fileTraceAux_ledger (cfg : Cfg) (hx : cfg.xstart ≤ cfg.xstop) :
    ∀ (frames : List (List (List U32))) (s0 : PState), ledger s0 →
    ∀ st ∈ fileTraceAux cfg s0 frames, ledger st := by
  intro frames
  induction frames with
  | nil => intro s0 _ st hst; simp [fileTraceAux] at hst
  | cons f fs ih =>
    intro s0 h0 st hst
    rcases List.mem_append.mp hst with hmem | hmem
    · exact frameTrace_ledger cfg hx s0 f h0 st hmem
    · exact ih (frameEnd cfg s0 f) (frameEnd_ledger cfg hx s0 f h0) st hmem

theorem c1_ledger_invariant (cfg : Cfg) (hx : cfg.xstart ≤ cfg.xstop) (m0 : Nat → U32)
    (frames : List (List (List U32))) :
    ∀ st ∈ fileTrace cfg m0 frames, ledger st := by
  intro st hst
  rcases List.mem_cons.mp hst with rfl | hmem
  · rfl
  · exact fileTraceAux_ledger cfg hx frames (initState m0) rfl st hmem

/-- Witness for C1: a concrete two-row frame processed end to end; the
file-end state satisfies the ledger equation. -/
theorem c1_witness :
    (⟨1, 1, 0, 1000000, 0, 1000000, false, false⟩ : Cfg).xstart
      ≤ (⟨1, 1, 0, 1000000, 0, 1000000, false, false⟩ : Cfg).xstop ∧
    ledger (frameEnd ⟨1, 1, 0, 1000000, 0, 1000000, false, false⟩
      (initState (fun _ => 0)) [[1, 2, 3], [4, 5, 6]]) :=
  ⟨by decide,
   c1_ledger_invariant ⟨1, 1, 0, 1000000, 0, 1000000, false, false⟩ (by decide)
     (fun _ => 0) [[[1, 2, 3], [4, 5, 6]]]
     (frameEnd ⟨1, 1, 0, 1000000, 0, 1000000, false, false⟩
       (initState (fun _ => 0)) [[1, 2, 3], [4, 5, 6]])
     (by simp [fileTrace, fileTraceAux, frameTrace])⟩

theorem padGo_preserve_or_zero : ∀ (k : Nat) (st : PState) (j : Nat),
    (padGo k st).matrix j = st.matrix j ∨ (padGo k st).matrix j = 0 := by
  intro k
  induction k with
  | zero => intro st j; exact Or.inl rfl
  | succ k ih =>
    intro st j
    simp only [padGo]
    split_ifs with h
    · rcases ih { clear_row st with frame_h := st.frame_h + 1 } j with hc | hc
      · rw [hc]
        simp only [clear_row]
        split_ifs with hreg
        · exact Or.inr rfl
        · exact Or.inl rfl
      · exact Or.inr hc
    · exact Or.inl rfl

theorem padGo_frame_h : ∀ (k : Nat) (st : PState), st.rows ≤ st.frame_h + k →
    (padGo k st).frame_h = max st.frame_h st.rows := by
  intro k
  induction k with
  | zero => intro st h; simp only [padGo]; omega
  | succ k ih =>
    intro st h
    simp only [padGo]
    split_ifs with hlt
    · rw [ih { clear_row st with frame_h := st.frame_h + 1 }
        (by show st.rows ≤ st.frame_h + 1 + k; omega)]
      show max (st.frame_h + 1) st.rows = max st.frame_h st.rows
      omega
    · omega

theorem padGo_zero : ∀ (k : Nat) (st : PState), st.rows ≤ st.frame_h + k →
    st.frame_w ≤ MAX_BIN →
    ∀ j, st.frame_h * st.frame_w ≤ j → j < st.rows * st.frame_w →
    (padGo k st).matrix j = 0 := by
  intro k
  induction k with
  | zero =>
    intro st h hw j hj1 hj2
    exfalso
    have h2 : st.rows ≤ st.frame_h := by omega
    have := Nat.mul_le_mul_right st.frame_w h2
    omega
  | succ k ih =>
    intro st h hw j hj1 hj2
    simp only [padGo]
    split_ifs with hlt
    · by_cases hreg : j < st.frame_h * st.frame_w + MAX_BIN
      · rcases padGo_preserve_or_zero k { clear_row st with frame_h := st.frame_h + 1 } j
          with hc | hc
        · rw [hc]
          simp only [clear_row]
          rw [if_pos ⟨hj1, hreg⟩]
        · exact hc
      · refine ih { clear_row st with frame_h := st.frame_h + 1 }
          (by show st.rows ≤ st.frame_h + 1 + k; omega)
          (by show st.frame_w ≤ MAX_BIN; exact hw) j
          (by show (st.frame_h + 1) * st.frame_w ≤ j
              have hmul : (st.frame_h + 1) * st.frame_w
                  = st.frame_h * st.frame_w + st.frame_w := by ring
              omega)
          (by show j < st.rows * st.frame_w; exact hj2)
    · exfalso
      have := Nat.mul_le_mul_right st.frame_w (show st.rows ≤ st.frame_h by omega)
      omega

theorem wfPartialRow_shape (cfg : Cfg) (st : PState) (hra : st.rows_accumulated = 0) :
    (wfPartialRow cfg st).matrix = st.matrix ∧
    (wfPartialRow cfg st).frame_h = st.frame_h ∧
    (wfPartialRow cfg st).frame_w = st.frame_w ∧
    (wfPartialRow cfg st).rows = st.rows ∧
    (wfPartialRow cfg st).columns = st.columns ∧
    (wfPartialRow cfg st).warn_dims = st.warn_dims ∧
    (wfPartialRow cfg st).warn_count = st.warn_count := by
  simp only [wfPartialRow]
  split_ifs with h1 h2 h3
  · exact absurd hra h2
  · exact ⟨rfl, rfl, rfl, rfl, rfl, rfl, rfl⟩
  · exact absurd hra h3.2
  · exact ⟨rfl, rfl, rfl, rfl, rfl, rfl, rfl⟩

/-- C8: a frame with zero raw rows (`frame_h = 0`, `rows_accumulated = 0`),
after an `R×C` shape has been established for the file (`rows = R ≥ 1`,
`columns = C ≤ MAX_BIN`), is replaced during finalization by `R` all-zero
rows of width `C`: the frame shape becomes `R×C`, the emitted rows are `R`
copies of `C` zeros, and no shape warning is raised (`warn_dims` and
`warn_count` are untouched).  Stated for the non-transposing output path;
the ICP path additionally transposes the all-zero matrix. -/
theorem c8_dropped_frame_recovery (cfg : Cfg) (st : PState)
    (hh : st.frame_h = 0) (hra : st.rows_accumulated = 0) (hr : 1 ≤ st.rows)
    (hc : st.columns ≤ MAX_BIN) (ht : cfg.doTranspose = false) :
    (write_frame cfg st).1.frame_h = st.rows ∧
    (write_frame cfg st).1.frame_w = st.columns ∧
    (write_frame cfg st).1.rows = st.rows ∧
    (write_frame cfg st).1.warn_count = st.warn_count ∧
    (write_frame cfg st).1.warn_dims = st.warn_dims ∧
    (write_frame cfg st).2 = List.replicate st.rows (List.replicate st.columns 0) := by
  obtain ⟨hsm, hsfh, hsfw, hsr, hsc, hswd, hswc⟩ := wfPartialRow_shape cfg st hra
  have h2 : wfReconcile (wfPartialRow cfg st)
      = padGo (wfPartialRow cfg st).rows
          { wfPartialRow cfg st with
            frame_w := (wfPartialRow cfg st).columns
            frame_h := 0 } := by
    simp only [wfReconcile]
    rw [if_neg (by rw [hsr]; omega), if_pos (by rw [hsfh]; exact hh)]
    rfl
  have hfh : (wfReconcile (wfPartialRow cfg st)).frame_h = st.rows := by
    rw [h2]
    rw [padGo_frame_h _ _ (by show (wfPartialRow cfg st).rows ≤ 0 + _; omega)]
    show max 0 (wfPartialRow cfg st).rows = st.rows
    rw [hsr]
    omega
  have hfw : (wfReconcile (wfPartialRow cfg st)).frame_w = st.columns := by
    rw [h2, (padGo_counters _ _).2.2.2.2.2.2.2.1]
    show (wfPartialRow cfg st).columns = st.columns
    exact hsc
  have hrows : (wfReconcile (wfPartialRow cfg st)).rows = st.rows := by
    rw [h2, (padGo_counters _ _).2.2.2.2.1]
    show (wfPartialRow cfg st).rows = st.rows
    exact hsr
  have hwc : (wfReconcile (wfPartialRow cfg st)).warn_count = st.warn_count := by
    rw [h2, (padGo_counters _ _).2.2.2.1]
    show (wfPartialRow cfg st).warn_count = st.warn_count
    exact hswc
  have hwd : (wfReconcile (wfPartialRow cfg st)).warn_dims = st.warn_dims := by
    rw [h2, (padGo_counters _ _).2.2.2.2.2.2.1]
    show (wfPartialRow cfg st).warn_dims = st.warn_dims
    exact hswd
  have hzero : ∀ j, j < st.rows * st.columns →
      (wfReconcile (wfPartialRow cfg st)).matrix j = 0 := by
    intro j hj
    rw [h2]
    refine padGo_zero _ _ (by show (wfPartialRow cfg st).rows ≤ 0 + _; omega)
      (by show (wfPartialRow cfg st).columns ≤ MAX_BIN; rw [hsc]; exact hc) j
      (by show 0 * (wfPartialRow cfg st).columns ≤ j; omega) ?_
    show j < (wfPartialRow cfg st).rows * (wfPartialRow cfg st).columns
    rw [hsr, hsc]
    exact hj
  have h3 : wfTranspose cfg (wfReconcile (wfPartialRow cfg st))
      = wfReconcile (wfPartialRow cfg st) := by
    simp [wfTranspose, ht]
  refine ⟨?_, ?_, ?_, ?_, ?_, ?_⟩
  · show (wfTranspose cfg (wfReconcile (wfPartialRow cfg st))).frame_h = st.rows
    rw [h3, hfh]
  · show (wfTranspose cfg (wfReconcile (wfPartialRow cfg st))).frame_w = st.columns
    rw [h3, hfw]
  · show (wfTranspose cfg (wfReconcile (wfPartialRow cfg st))).rows = st.rows
    rw [h3, hrows]
  · show (wfTranspose cfg (wfReconcile (wfPartialRow cfg st))).warn_count = st.warn_count
    rw [h3, hwc]
  · show (wfTranspose cfg (wfReconcile (wfPartialRow cfg st))).warn_dims = st.warn_dims
    rw [h3, hwd]
  · show (List.range (wfTranspose cfg (wfReconcile (wfPartialRow cfg st))).frame_h).map
      (fun i => (List.range
          (wfTranspose cfg (wfReconcile (wfPartialRow cfg st))).frame_w).map
        (fun j => (wfTranspose cfg (wfReconcile (wfPartialRow cfg st))).matrix
          (i * (wfTranspose cfg (wfReconcile (wfPartialRow cfg st))).frame_w + j)))
      = List.replicate st.rows (List.replicate st.columns 0)
    rw [h3, hfh, hfw]
    apply List.eq_replicate.mpr
    refine ⟨by simp, ?_⟩
    intro row hrow
    rcases List.mem_map.mp hrow with ⟨i, hi, hrow⟩
    subst hrow
    apply List.eq_replicate.mpr
    refine ⟨by simp, ?_⟩
    intro x hx
    rcases List.mem_map.mp hx with ⟨j, hj, hx⟩
    subst hx
    apply hzero
    simp only [List.mem_range] at hi hj
    calc i * st.columns + j < i * st.columns + st.columns := by omega
      _ = (i + 1) * st.columns := by ring
      _ ≤ st.rows * st.columns := Nat.mul_le_mul_right _ (by omega)

/-- Witness for C8: a dropped frame after an established 2×3 shape, with a
stale nonzero matrix, is emitted as two rows of three zeros with no
warning. -/
theorem c8_witness :
    (1 : Nat) ≤ 2 ∧ (3 : Nat) ≤ MAX_BIN ∧
    (write_frame ⟨1, 1, 0, 1000000, 0, 1000000, false, false⟩
      ⟨fun _ => 7, 9, 0, 0, 0, 60, 60, 0, 2, 2, 3, true, 0⟩).2
      = List.replicate 2 (List.replicate 3 0) := by
  refine ⟨by norm_num, by norm_num [MAX_BIN], ?_⟩
  exact (c8_dropped_frame_recovery ⟨1, 1, 0, 1000000, 0, 1000000, false, false⟩
    ⟨fun _ => 7, 9, 0, 0, 0, 60, 60, 0, 2, 2, 3, true, 0⟩
    rfl rfl (by norm_num) (by norm_num [MAX_BIN]) rfl).2.2.2.2.2

/-- C7 (code bug): `next_frame` clears only the first `MAX_BIN = 2048`
cells of the frame buffer while carrying the established `rows`/`columns`
shape into the next point: every cell below 2048 is zeroed but every cell
at index 2048 or above keeps the previous point's count.  For any file
whose established frame shape uses more than 2048 cells (e.g. 2 rows x
1025 bins, whose row 1 spans cells 1025-2049), the next point therefore
starts accumulating into cells that still hold the previous frame's
values, contradicting the claim that the reused storage is cleared. -/
theorem c7_stale_frame_cells (st : PState) :
    (∀ k, k < MAX_BIN → (next_frame st).matrix k = 0) ∧
    (∀ k, MAX_BIN ≤ k → (next_frame st).matrix k = st.matrix k) ∧
    (next_frame st).rows = st.rows ∧
    (next_frame st).columns = st.columns ∧
    (next_frame st).frame_h = 0 ∧
    (next_frame st).rows_accumulated = 0 := by
  refine ⟨?_, ?_, rfl, rfl, rfl, rfl⟩
  · intro k hk
    show (if 0 * 0 ≤ k ∧ k < 0 * 0 + MAX_BIN then 0 else st.matrix k) = 0
    rw [if_pos ⟨Nat.zero_le k, by simpa using hk⟩]
  · intro k hk
    show (if 0 * 0 ≤ k ∧ k < 0 * 0 + MAX_BIN then 0 else st.matrix k) = st.matrix k
    rw [if_neg (by simp only [MAX_BIN] at hk ⊢; omega)]

/-- Witness for C7: with an established 2x1025 shape and all cells holding
count 1, starting the next point zeroes cell 5 but leaves cell 2048 - a
cell of the coming frame - holding the stale 1. -/
theorem c7_witness :
    5 < MAX_BIN ∧ MAX_BIN ≤ 2048 ∧
    (next_frame ⟨fun _ => 1, 0, 1025, 2, 0, 0, 0, 0, 0, 2, 1025, false, 0⟩).matrix 5 = 0 ∧
    (next_frame ⟨fun _ => 1, 0, 1025, 2, 0, 0, 0, 0, 0, 2, 1025, false, 0⟩).matrix 2048 = 1 ∧
    (next_frame ⟨fun _ => 1, 0, 1025, 2, 0, 0, 0, 0, 0, 2, 1025, false, 0⟩).rows = 2 ∧
    (next_frame ⟨fun _ => 1, 0, 1025, 2, 0, 0, 0, 0, 0, 2, 1025, false, 0⟩).columns = 1025 :=
  ⟨by decide, by decide,
    (c7_stale_frame_cells _).1 5 (by decide),
    ((c7_stale_frame_cells _).2.1 2048 (by decide)).trans rfl,
    (c7_stale_frame_cells _).2.2.1,
    (c7_stale_frame_cells _).2.2.2.1⟩

/-- C2 (counterexample): emitting the 2×2 frame `[[1,1],[1,1]]` through the
ICP encoder writes the single physical record `" 1,1,1,1\n"`: the first
row's last value is followed by a comma, not a line break, and the whole
frame contains one line break for two rows. -/
theorem c2_inner_row_not_terminated :
    (icpEmitFrame icpInit [[1, 1], [1, 1]]).out
      = [' ', '1', ',', '1', ',', '1', ',', '1', '\n'] ∧
    (icpEmitFrame icpInit [[1, 1], [1, 1]]).out.count '\n' = 1 := by
  constructor <;> decide

theorem decRepr_mem_digit (u : Nat) : ∀ c ∈ decRepr u, ∃ d, d < 10 ∧ c = digitChar d := by
  induction u using Nat.strong_induction_on with
  | _ u ih =>
    by_cases h : u < 10
    · rw [decRepr_of_lt u h]
      intro c hc
      simp only [List.mem_singleton] at hc
      exact ⟨u, h, hc⟩
    · rw [decRepr_of_ge u (by omega)]
      intro c hc
      rcases List.mem_append.mp hc with hc1 | hc2
      · exact ih (u / 10) (Nat.div_lt_self (by omega) (by omega)) c hc1
      · simp only [List.mem_singleton] at hc2
        exact ⟨u % 10, Nat.mod_lt _ (by omega), hc2⟩

theorem decRepr_comma_free (u : Nat) : ',' ∉ decRepr u := by
  intro hmem
  obtain ⟨d, hd, he⟩ := decRepr_mem_digit u ',' hmem
  have : ∀ d, d < 10 → digitChar d ≠ ',' := by decide
  exact this d hd he.symm

theorem icp_save_cons (s : IcpSt) (x y : Nat) (rest : List Nat) (b : Bool) :
    icp_save s (x :: y :: rest) b = icp_save (icpStep s x) (y :: rest) b := rfl

theorem icp_save_cont : ∀ (v : List Nat) (s : IcpSt), v ≠ [] →
    icp_save s v true = v.foldl icpStep s := by
  intro v
  induction v with
  | nil => intro s h; exact absurd rfl h
  | cons x xs ih =>
    intro s _
    cases xs with
    | nil => rfl
    | cons y ys =>
      rw [icp_save_cons, ih (icpStep s x) (by simp)]
      rfl

theorem icp_save_last : ∀ (v : List Nat) (s : IcpSt) (n : Nat),
    icp_save s (v ++ [n]) false = icp_save (v.foldl icpStep s) [n] false := by
  intro v
  induction v with
  | nil => intro s n; rfl
  | cons x xs ih =>
    intro s n
    cases xs with
    | nil => rfl
    | cons y ys =>
      show icp_save (icpStep s x) ((y :: ys) ++ [n]) false = _
      rw [ih]
      rfl

theorem icpEmitFrame_eq : ∀ (rs : List (List Nat)) (s : IcpSt) (lr : List Nat),
    (∀ q ∈ rs, q ≠ []) →
    icpEmitFrame s (rs ++ [lr]) = icp_save (rs.flatten.foldl icpStep s) lr false := by
  intro rs
  induction rs with
  | nil => intro s lr _; rfl
  | cons r rs ih =>
    intro s lr hne
    have hstep : icpEmitFrame s ((r :: rs) ++ [lr])
        = icpEmitFrame (icp_save s r true) (rs ++ [lr]) := by
      cases rs with
      | nil => rfl
      | cons a b => rfl
    rw [hstep, ih _ lr (fun q hq => hne q (by simp [hq])),
      icp_save_cont r s (hne r (by simp))]
    rw [List.flatten_cons, List.foldl_append]

theorem dropLast_cons_concat (c : Char) (l : List Char) (x : Char) :
    (c :: (l ++ [x])).dropLast = c :: l := by
  induction l <;> simp [List.dropLast]

theorem icpMoveNum_putNum (s : IcpSt) (n : Nat) (B : List Char) (hbuf : s.buf = ' ' :: B) :
    icpMoveNum (icpPutNum s n) n
      = { buf := ' ' :: (utoaList n ++ [',']),
          out := s.out ++ (' ' :: B) ++ ['\n'] } := by
  have h1 : (icpPutNum s n).buf = (' ' :: B) ++ (utoaList n ++ [',']) := by
    simp [icpPutNum, hbuf]
  have h2 : (icpPutNum s n).buf.length - ((utoaList n).length + 1) = (' ' :: B).length := by
    rw [h1]
    simp only [List.length_append, List.length_cons, List.length_nil]
    omega
  have h3 : (icpPutNum s n).buf.take ((icpPutNum s n).buf.length - ((utoaList n).length + 1))
      = ' ' :: B := by
    rw [h2, h1, List.take_left]
  simp only [icpMoveNum]
  rw [h3]
  rfl

theorem icpInv_start (prior : List Char) : IcpInv prior [] ⟨[' '], prior⟩ :=
  ⟨[], [], rfl, by simp, by simp, by simp, Or.inl rfl⟩

theorem icpStep_inv (prior : List Char) (ps : List Nat) (s : IcpSt) (n : Nat)
    (hn : n < 2 ^ 32) (h : IcpInv prior ps s) :
    IcpInv prior (ps ++ [n]) (icpStep s n) := by
  obtain ⟨cs, B, hbuf, hout, hflat, hcs, hB⟩ := h
  have hD : utoaList n = decRepr n := utoaList_eq_decRepr n
  have hDlen : (decRepr n).length ≤ 10 :=
    decRepr_length_le 10 n (by norm_num) (lt_of_lt_of_le hn (by norm_num))
  have hbuf1 : (icpPutNum s n).buf = ' ' :: (B ++ (decRepr n ++ [','])) := by
    simp [icpPutNum, hbuf, hD]
  have hout1 : (icpPutNum s n).out = s.out := rfl
  by_cases hlen : 78 < (icpPutNum s n).buf.length
  · have hstep : icpStep s n = icpMoveNum (icpPutNum s n) n := by
      simp only [icpStep]
      rw [if_pos hlen]
    have hBne : B ≠ [] := by
      intro hBnil
      rw [hbuf1, hBnil] at hlen
      simp only [List.nil_append, List.length_cons, List.length_append,
        List.length_singleton, List.length_nil] at hlen
      omega
    have hBlast : B.getLast? = some ',' := hB.resolve_left hBne
    rw [hstep, icpMoveNum_putNum s n B hbuf]
    refine ⟨cs ++ [B], decRepr n ++ [','], by rw [hD], ?_, ?_, ?_, ?_⟩
    · show s.out ++ (' ' :: B) ++ ['\n'] = _
      rw [hout, List.map_append, List.flatten_append]
      simp [icpWrapLine]
    · show (cs ++ [B]).flatten ++ (decRepr n ++ [',']) = _
      rw [List.map_append, List.flatten_append, List.flatten_append, ← hflat]
      simp [List.append_assoc]
    · intro c hc
      rcases List.mem_append.mp hc with h1 | h2
      · exact hcs c h1
      · simp only [List.mem_singleton] at h2
        subst h2
        exact ⟨hBne, hBlast⟩
    · exact Or.inr (List.getLast?_concat _)
  · have hstep : icpStep s n = icpPutNum s n := by
      simp only [icpStep]
      rw [if_neg hlen]
    rw [hstep]
    refine ⟨cs, B ++ (decRepr n ++ [',']), hbuf1, by rw [hout1, hout], ?_, hcs, ?_⟩
    · rw [List.map_append, List.flatten_append]
      simp only [List.map_cons, List.map_nil, List.flatten_cons, List.flatten_nil,
        List.append_nil]
      rw [← hflat]
      simp [List.append_assoc]
    · refine Or.inr ?_
      rw [show B ++ (decRepr n ++ [',']) = (B ++ decRepr n) ++ [','] by simp]
      exact List.getLast?_concat _

theorem icpFoldl_inv (prior : List Char) : ∀ (vs ps : List Nat) (s : IcpSt),
    (∀ n ∈ vs, n < 2 ^ 32) → IcpInv prior ps s →
    IcpInv prior (ps ++ vs) (vs.foldl icpStep s) := by
  intro vs
  induction vs with
  | nil => intro ps s _ h; simpa using h
  | cons n vs ih =>
    intro ps s hval h
    have h1 := icpStep_inv prior ps s n (hval n (by simp)) h
    have h2 := ih (ps ++ [n]) (icpStep s n) (fun m hm => hval m (by simp [hm])) h1
    simpa [List.append_assoc] using h2

theorem icpRecord_concat : ∀ (ps : List Nat) (n : Nat),
    (ps.map (fun m => decRepr m ++ [','])).flatten ++ decRepr n = icpRecord (ps ++ [n]) := by
  intro ps
  induction ps with
  | nil => intro n; simp [icpRecord]
  | cons p ps ih =>
    intro n
    cases ps with
    | nil => simp [icpRecord]
    | cons q qs =>
      have h1 : icpRecord ((p :: q :: qs) ++ [n])
          = decRepr p ++ [','] ++ icpRecord ((q :: qs) ++ [n]) := rfl
      rw [h1, ← ih n]
      simp [List.append_assoc]

theorem icp_save_finish (prior : List Char) (ps : List Nat) (s : IcpSt) (n : Nat)
    (hn : n < 2 ^ 32) (h : IcpInv prior ps s) :
    ∃ cs : List (List Char), cs ≠ [] ∧
      (icp_save s [n] false).buf = [' '] ∧
      (icp_save s [n] false).out = prior ++ (cs.map icpWrapLine).flatten ∧
      cs.flatten = icpRecord (ps ++ [n]) ∧
      (∀ c ∈ cs.dropLast, c.getLast? = some ',') ∧
      (∃ pre, cs.getLast? = some (pre ++ decRepr n)) := by
  obtain ⟨cs, B, hbuf, hout, hflat, hcs, hB⟩ := h
  have hD : utoaList n = decRepr n := utoaList_eq_decRepr n
  have hDlen : (decRepr n).length ≤ 10 :=
    decRepr_length_le 10 n (by norm_num) (lt_of_lt_of_le hn (by norm_num))
  have hbuf1 : (icpPutNum s n).buf = ' ' :: (B ++ (decRepr n ++ [','])) := by
    simp [icpPutNum, hbuf, hD]
  have hloop : icpLoop s [n] = (icpPutNum s n, n) := rfl
  have hflatgoal : cs.flatten ++ (B ++ decRepr n) = icpRecord (ps ++ [n]) := by
    rw [← icpRecord_concat ps n, ← hflat]
    simp [List.append_assoc]
  by_cases hlen : 78 < (icpPutNum s n).buf.length - 1
  · have hstep : icp_save s [n] false
        = { buf := [' '],
            out := (icpMoveNum (icpPutNum s n) n).out
              ++ (icpMoveNum (icpPutNum s n) n).buf.dropLast ++ ['\n'] } := by
      simp only [icp_save, hloop]
      rw [if_neg Bool.false_ne_true, if_pos hlen]
    have hBne : B ≠ [] := by
      intro hBnil
      rw [hbuf1, hBnil] at hlen
      simp only [List.nil_append, List.length_cons, List.length_append,
        List.length_singleton, List.length_nil] at hlen
      omega
    have hBlast : B.getLast? = some ',' := hB.resolve_left hBne
    rw [hstep, icpMoveNum_putNum s n B hbuf]
    refine ⟨cs ++ [B] ++ [decRepr n], by simp, rfl, ?_, ?_, ?_, ?_⟩
    · show s.out ++ (' ' :: B) ++ ['\n'] ++ (' ' :: (utoaList n ++ [','])).dropLast ++ ['\n'] = _
      have hdrop : (' ' :: (utoaList n ++ [','])).dropLast = ' ' :: decRepr n := by
        rw [hD]
        exact dropLast_cons_concat ' ' (decRepr n) ','
      rw [hdrop, hout]
      simp only [List.map_append, List.flatten_append, List.map_cons, List.map_nil,
        List.flatten_cons, List.flatten_nil, List.append_nil, icpWrapLine]
      simp [List.append_assoc]
    · rw [← hflatgoal]
      simp [List.append_assoc]
    · intro c hc
      rw [show cs ++ [B] ++ [decRepr n] = (cs ++ [B]) ++ [decRepr n] from rfl,
        List.dropLast_concat] at hc
      rcases List.mem_append.mp hc with h1 | h2
      · exact (hcs c h1).2
      · simp only [List.mem_singleton] at h2
        subst h2
        exact hBlast
    · exact ⟨[], by simp⟩
  · have hstep : icp_save s [n] false
        = { buf := [' '],
            out := (icpPutNum s n).out ++ (icpPutNum s n).buf.dropLast ++ ['\n'] } := by
      simp only [icp_save, hloop]
      rw [if_neg Bool.false_ne_true, if_neg hlen]
    rw [hstep]
    refine ⟨cs ++ [B ++ decRepr n], by simp, rfl, ?_, ?_, ?_, ?_⟩
    · have hdrop : (icpPutNum s n).buf.dropLast = ' ' :: (B ++ decRepr n) := by
        rw [hbuf1, ← List.append_assoc]
        exact dropLast_cons_concat ' ' (B ++ decRepr n) ','
      rw [hdrop, show (icpPutNum s n).out = s.out from rfl, hout]
      simp only [List.map_append, List.flatten_append, List.map_cons, List.map_nil,
        List.flatten_cons, List.flatten_nil, List.append_nil, icpWrapLine]
      simp [List.append_assoc]
    · rw [← hflatgoal]
      simp [List.append_assoc]
    · intro c hc
      rw [List.dropLast_concat] at hc
      exact (hcs c hc).2
    · exact ⟨B, by simp⟩

theorem splitSep_ne_nil (sep : Char) : ∀ (l : List Char), splitSep sep l ≠ [] := by
  intro l
  cases l with
  | nil => simp [splitSep]
  | cons c cs =>
    simp only [splitSep]
    cases splitSep sep cs with
    | nil => simp
    | cons p ps => by_cases h : c = sep <;> simp [h]

theorem splitSep_no_sep : ∀ (l : List Char) (sep : Char), sep ∉ l → splitSep sep l = [l] := by
  intro l sep
  induction l with
  | nil => intro h; rfl
  | cons c cs ih =>
    intro h
    have hc : c ≠ sep := fun he => h (by simp [he])
    have hcs : sep ∉ cs := fun hm => h (by simp [hm])
    simp only [splitSep, ih hcs]
    simp [hc]

theorem splitSep_cons_sep : ∀ (D R : List Char) (sep : Char), sep ∉ D →
    splitSep sep (D ++ sep :: R) = D :: splitSep sep R := by
  intro D
  induction D with
  | nil =>
    intro R sep _
    rcases hR : splitSep sep R with _ | ⟨p, ps⟩
    · exact absurd hR (splitSep_ne_nil sep R)
    · simp [splitSep, hR]
  | cons c D ih =>
    intro R sep h
    have hc : c ≠ sep := fun he => h (by simp [he])
    have hD : sep ∉ D := fun hm => h (by simp [hm])
    have hstep : splitSep sep ((c :: D) ++ sep :: R)
        = match splitSep sep (D ++ sep :: R) with
          | [] => [[c]]
          | p :: ps => if c = sep then [] :: p :: ps else (c :: p) :: ps := rfl
    rw [hstep, ih R sep hD]
    simp [hc]

theorem splitSep_icpRecord : ∀ (vs : List Nat), vs ≠ [] →
    splitSep ',' (icpRecord vs) = vs.map decRepr := by
  intro vs
  induction vs with
  | nil => intro h; exact absurd rfl h
  | cons v vs ih =>
    intro _
    cases vs with
    | nil =>
      show splitSep ',' (decRepr v) = [decRepr v]
      exact splitSep_no_sep _ _ (decRepr_comma_free v)
    | cons w ws =>
      have h1 : icpRecord (v :: w :: ws) = decRepr v ++ (',' :: icpRecord (w :: ws)) := by
        show decRepr v ++ [','] ++ icpRecord (w :: ws) = _
        simp
      rw [h1, splitSep_cons_sep _ _ _ (decRepr_comma_free v), ih (by simp)]
      rfl

/-- C2 (amended): for every nonempty frame of nonempty rows of 32-bit
values, the ICP encoder appends to the prior output a nonempty sequence of
wrapped physical lines (each a space, content, line break) and resets its
buffer; re-joining the lines' contents yields exactly the comma-joined
decimal record of the frame's ENTIRE value sequence, which splits on commas
back into the individual values.  Every physical line except the last ends
with a comma and only the frame's (not each row's) last value is followed
by the line break, so row boundaries are NOT recoverable. -/
theorem c2_icp_frame_format (rows : List (List Nat)) (prior : List Char)
    (hrows : rows ≠ []) (hrne : ∀ r ∈ rows, r ≠ [])
    (hval : ∀ r ∈ rows, ∀ v ∈ r, v < 2 ^ 32) :
    ∃ cs : List (List Char), cs ≠ [] ∧
      (icpEmitFrame ⟨[' '], prior⟩ rows).buf = [' '] ∧
      (icpEmitFrame ⟨[' '], prior⟩ rows).out = prior ++ (cs.map icpWrapLine).flatten ∧
      cs.flatten = icpRecord rows.flatten ∧
      (∀ c ∈ cs.dropLast, c.getLast? = some ',') ∧
      (∃ pre lastV, rows.flatten.getLast? = some lastV ∧
          cs.getLast? = some (pre ++ decRepr lastV)) ∧
      splitSep ',' (icpRecord rows.flatten) = rows.flatten.map decRepr := by
  rcases List.eq_nil_or_concat rows with hnil | ⟨rs, lr, hra⟩
  · exact absurd hnil hrows
  rw [List.concat_eq_append] at hra
  subst hra
  have hlrne : lr ≠ [] := hrne lr (by simp)
  rcases List.eq_nil_or_concat lr with hnil | ⟨vs0, lastV, hlr⟩
  · exact absurd hnil hlrne
  rw [List.concat_eq_append] at hlr
  have hflatrows : (rs ++ [lr]).flatten = (rs.flatten ++ vs0) ++ [lastV] := by
    rw [List.flatten_append, hlr]
    simp [List.append_assoc]
  have hemit : icpEmitFrame ⟨[' '], prior⟩ (rs ++ [lr])
      = icp_save ((rs.flatten ++ vs0).foldl icpStep ⟨[' '], prior⟩) [lastV] false := by
    rw [icpEmitFrame_eq rs ⟨[' '], prior⟩ lr (fun q hq => hrne q (by simp [hq])), hlr,
      icp_save_last, List.foldl_append]
  have hvflat : ∀ m ∈ rs.flatten ++ vs0, m < 2 ^ 32 := by
    intro m hm
    have hmem : m ∈ (rs ++ [lr]).flatten := by
      rw [hflatrows]
      exact List.mem_append.mpr (Or.inl hm)
    obtain ⟨r, hr, hmr⟩ := List.mem_flatten.mp hmem
    exact hval r hr m hmr
  have hlastval : lastV < 2 ^ 32 := by
    refine hval lr (by simp) lastV ?_
    rw [hlr]; simp
  have hinv := icpFoldl_inv prior (rs.flatten ++ vs0) [] ⟨[' '], prior⟩ hvflat
    (icpInv_start prior)
  rw [List.nil_append] at hinv
  obtain ⟨cs, hcne, hb, ho, hf, hd, pre, hpre⟩ :=
    icp_save_finish prior (rs.flatten ++ vs0) _ lastV hlastval hinv
  refine ⟨cs, hcne, by rw [hemit]; exact hb, by rw [hemit]; exact ho, ?_, hd, ?_, ?_⟩
  · rw [hflatrows]; exact hf
  · exact ⟨pre, lastV, by rw [hflatrows]; exact List.getLast?_concat _, hpre⟩
  · refine splitSep_icpRecord _ ?_
    rw [hflatrows]; simp

theorem c2_witness :
    ([[1, 2], [3]] : List (List Nat)) ≠ [] ∧
    (∃ cs : List (List Char), cs ≠ [] ∧
      (icpEmitFrame ⟨[' '], []⟩ [[1, 2], [3]]).buf = [' '] ∧
      (icpEmitFrame ⟨[' '], []⟩ [[1, 2], [3]]).out
        = [] ++ (cs.map icpWrapLine).flatten ∧
      cs.flatten = icpRecord ([[1, 2], [3]] : List (List Nat)).flatten ∧
      (∀ c ∈ cs.dropLast, c.getLast? = some ',') ∧
      (∃ pre lastV,
          ([[1, 2], [3]] : List (List Nat)).flatten.getLast? = some lastV ∧
          cs.getLast? = some (pre ++ decRepr lastV)) ∧
      splitSep ',' (icpRecord ([[1, 2], [3]] : List (List Nat)).flatten)
        = ([[1, 2], [3]] : List (List Nat)).flatten.map decRepr) :=
  ⟨by decide,
    c2_icp_frame_format [[1, 2], [3]] [] (by decide) (by decide) (by decide)⟩

theorem tIdx_lt (n m j : Nat) (hj : j < n * m) : tIdx n m j < n * m := by
  have hm : 0 < m := by
    rcases Nat.eq_zero_or_pos m with h0 | h0
    · subst h0; simp at hj
    · exact h0
  have h1 : j % m ≤ m - 1 := by
    have := Nat.mod_lt j hm
    omega
  have h2 : j / m < n := Nat.div_lt_of_lt_mul (by rw [Nat.mul_comm m n]; exact hj)
  have h3 : n * (j % m) ≤ n * (m - 1) := Nat.mul_le_mul_left n h1
  have h4 : n * (m - 1) + n = n * m := by
    rcases Nat.exists_eq_add_of_le (show 1 ≤ m by omega) with ⟨m2, rfl⟩
    rw [show 1 + m2 - 1 = m2 from by omega, Nat.mul_add]
    ring
  unfold tIdx
  omega

theorem tIdx_tIdx (n m j : Nat) (hj : j < n * m) : tIdx m n (tIdx n m j) = j := by
  have hm : 0 < m := by
    rcases Nat.eq_zero_or_pos m with h0 | h0
    · subst h0; simp at hj
    · exact h0
  have hn : 0 < n := by
    rcases Nat.eq_zero_or_pos n with h0 | h0
    · subst h0; simp at hj
    · exact h0
  have h2 : j / m < n := Nat.div_lt_of_lt_mul (by rw [Nat.mul_comm m n]; exact hj)
  show m * ((n * (j % m) + j / m) % n) + (n * (j % m) + j / m) / n = j
  rw [Nat.mul_add_mod, Nat.mod_eq_of_lt h2, Nat.mul_add_div hn,
    Nat.div_eq_of_lt h2, Nat.add_zero, Nat.div_add_mod]

theorem tIdx_last (n m : Nat) (hn : 0 < n) (hm : 0 < m) :
    tIdx n m (n * m - 1) = n * m - 1 := by
  have hj : n * m - 1 = m * (n - 1) + (m - 1) := by
    have e : m * (n - 1) + m = m * n := by
      rcases Nat.exists_eq_add_of_le (show 1 ≤ n by omega) with ⟨n2, rfl⟩
      rw [show 1 + n2 - 1 = n2 from by omega, Nat.mul_add]
      ring
    have e3 : m * n = n * m := Nat.mul_comm m n
    omega
  have hmod : (n * m - 1) % m = m - 1 := by
    rw [hj, Nat.mul_add_mod, Nat.mod_eq_of_lt (by omega)]
  have hdiv : (n * m - 1) / m = n - 1 := by
    rw [hj, Nat.mul_add_div hm, Nat.div_eq_of_lt (by omega)]
    omega
  unfold tIdx
  rw [hmod, hdiv]
  have e4 : n * (m - 1) + n = n * m := by
    rcases Nat.exists_eq_add_of_le (show 1 ≤ m by omega) with ⟨m2, rfl⟩
    rw [show 1 + m2 - 1 = m2 from by omega, Nat.mul_add]
    ring
  omega

theorem tIdx_iter_lt (n m : Nat) : ∀ (s v : Nat), v < n * m → (tIdx n m)^[s] v < n * m := by
  intro s
  induction s with
  | zero => intro v hv; exact hv
  | succ s ih =>
    intro v hv
    rw [Function.iterate_succ_apply]
    exact ih (tIdx n m v) (tIdx_lt n m v hv)

theorem tIdx_inj (n m x y : Nat) (hx : x < n * m) (hy : y < n * m)
    (h : tIdx n m x = tIdx n m y) : x = y := by
  have h2 := congrArg (tIdx m n) h
  rwa [tIdx_tIdx n m x hx, tIdx_tIdx n m y hy] at h2

theorem tIdx_iter_inj (n m : Nat) : ∀ (c x y : Nat), x < n * m → y < n * m →
    (tIdx n m)^[c] x = (tIdx n m)^[c] y → x = y := by
  intro c
  induction c with
  | zero => intro x y _ _ h; simpa using h
  | succ c ih =>
    intro x y hx hy h
    rw [Function.iterate_succ_apply, Function.iterate_succ_apply] at h
    exact tIdx_inj n m x y hx hy (ih _ _ (tIdx_lt n m x hx) (tIdx_lt n m y hy) h)

theorem tIdx_period (n m v : Nat) (hv : v < n * m) :
    ∃ s, 1 ≤ s ∧ s ≤ n * m ∧ (tIdx n m)^[s] v = v := by
  have hmaps : ∀ k ∈ Finset.range (n * m + 1),
      (fun k => (tIdx n m)^[k] v) k ∈ Finset.range (n * m) := by
    intro k _
    exact Finset.mem_range.mpr (tIdx_iter_lt n m k v hv)
  have hcard : (Finset.range (n * m)).card < (Finset.range (n * m + 1)).card := by
    simp
  obtain ⟨a, ha, b, hb, hab, heq⟩ :=
    Finset.exists_ne_map_eq_of_card_lt_of_maps_to hcard hmaps
  simp only [Finset.mem_range] at ha hb
  have heq2 : (tIdx n m)^[a] v = (tIdx n m)^[b] v := heq
  rcases Nat.lt_or_ge a b with hlt | hge
  · refine ⟨b - a, by omega, by omega, ?_⟩
    have h1 : (tIdx n m)^[a] ((tIdx n m)^[b - a] v) = (tIdx n m)^[a] v := by
      rw [← Function.iterate_add_apply, show a + (b - a) = b from by omega, heq2]
    exact tIdx_iter_inj n m a _ v (tIdx_iter_lt n m _ v hv) hv h1
  · have hlt2 : b < a := by omega
    refine ⟨a - b, by omega, by omega, ?_⟩
    have h1 : (tIdx n m)^[b] ((tIdx n m)^[a - b] v) = (tIdx n m)^[b] v := by
      rw [← Function.iterate_add_apply, show b + (a - b) = a from by omega, heq2]
    exact tIdx_iter_inj n m b _ v (tIdx_iter_lt n m _ v hv) hv h1

theorem tIdx_inv_iterate (n m v : Nat) (hv : v < n * m) :
    ∃ s, s ≤ n * m ∧ (tIdx n m)^[s] v = tIdx m n v := by
  obtain ⟨p, hp1, hp2, hp3⟩ := tIdx_period n m v hv
  refine ⟨p - 1, by omega, ?_⟩
  have h1 : tIdx n m ((tIdx n m)^[p - 1] v) = v := by
    have h9 := Function.iterate_succ_apply' (tIdx n m) (p - 1) v
    rw [← h9, show Nat.succ (p - 1) = p from by omega, hp3]
  have h2 := congrArg (tIdx m n) h1
  rwa [tIdx_tIdx n m _ (tIdx_iter_lt n m _ v hv)] at h2

theorem firstGTs_spec (n m t : Nat) : ∀ (f cur : Nat),
    (∃ k, k ≤ f ∧ t < (tIdx n m)^[k] cur) →
    ∃ s, s ≤ f ∧ firstGTs n m t f cur = (tIdx n m)^[s] cur ∧
      t < (tIdx n m)^[s] cur ∧ ∀ r < s, (tIdx n m)^[r] cur ≤ t := by
  intro f
  induction f with
  | zero =>
    intro cur h
    obtain ⟨k, hk, hgt⟩ := h
    have hk0 : k = 0 := by omega
    subst hk0
    simp only [Function.iterate_zero_apply] at hgt
    exact ⟨0, Nat.le_refl 0, rfl, by simpa using hgt, by omega⟩
  | succ f ih =>
    intro cur h
    by_cases hc : t < cur
    · refine ⟨0, by omega, ?_, by simpa using hc, by omega⟩
      show (if t < cur then cur else firstGTs n m t f (tIdx n m cur)) = _
      rw [if_pos hc]
      simp
    · obtain ⟨k, hk, hgt⟩ := h
      have hk0 : k ≠ 0 := by
        intro h0
        subst h0
        simp only [Function.iterate_zero_apply] at hgt
        exact hc hgt
      have hnext : ∃ k2, k2 ≤ f ∧ t < (tIdx n m)^[k2] (tIdx n m cur) := by
        refine ⟨k - 1, by omega, ?_⟩
        rw [← Function.iterate_succ_apply, show Nat.succ (k - 1) = k from by omega]
        exact hgt
      obtain ⟨s, hs1, hs2, hs3, hs4⟩ := ih (tIdx n m cur) hnext
      refine ⟨s + 1, by omega, ?_, ?_, ?_⟩
      · show (if t < cur then cur else firstGTs n m t f (tIdx n m cur)) = _
        rw [if_neg hc, hs2, Function.iterate_succ_apply]
      · rw [Function.iterate_succ_apply]
        exact hs3
      · intro r hr
        cases r with
        | zero => simpa using Nat.le_of_not_lt hc
        | succ r =>
          rw [Function.iterate_succ_apply]
          exact hs4 r (by omega)

theorem firstGTs_eq (n m t f cur s : Nat) (hsf : s ≤ f)
    (hgt : t < (tIdx n m)^[s] cur) (hmin : ∀ r < s, (tIdx n m)^[r] cur ≤ t) :
    firstGTs n m t f cur = (tIdx n m)^[s] cur := by
  obtain ⟨s2, hs1, hs2, hs3, hs4⟩ := firstGTs_spec n m t f cur ⟨s, hsf, hgt⟩
  have he : s2 = s := by
    rcases Nat.lt_trichotomy s2 s with h | h | h
    · exact absurd hs3 (Nat.not_lt.mpr (hmin s2 h))
    · exact h
    · exact absurd hgt (Nat.not_lt.mpr (hs4 s h))
  rw [hs2, he]

theorem firstGE_spec (n m i : Nat) : ∀ (f cur : Nat),
    (∃ k, 1 ≤ k ∧ k ≤ f ∧ i ≤ (tIdx n m)^[k] cur) →
    ∃ s, 1 ≤ s ∧ s ≤ f ∧ firstGE n m i f cur = (tIdx n m)^[s] cur ∧
      i ≤ (tIdx n m)^[s] cur ∧ ∀ r, 1 ≤ r → r < s → (tIdx n m)^[r] cur < i := by
  intro f
  induction f with
  | zero =>
    intro cur h
    obtain ⟨k, hk1, hk2, _⟩ := h
    omega
  | succ f ih =>
    intro cur h
    by_cases hc : tIdx n m cur < i
    · obtain ⟨k, hk1, hk2, hgt⟩ := h
      have hk3 : k ≠ 1 := by
        intro h1
        subst h1
        simp only [Function.iterate_one] at hgt
        omega
      have hnext : ∃ k2, 1 ≤ k2 ∧ k2 ≤ f ∧ i ≤ (tIdx n m)^[k2] (tIdx n m cur) := by
        refine ⟨k - 1, by omega, by omega, ?_⟩
        rw [← Function.iterate_succ_apply, show Nat.succ (k - 1) = k from by omega]
        exact hgt
      obtain ⟨s, hs0, hs1, hs2, hs3, hs4⟩ := ih (tIdx n m cur) hnext
      refine ⟨s + 1, by omega, by omega, ?_, ?_, ?_⟩
      · show (if tIdx n m cur < i then firstGE n m i f (tIdx n m cur) else tIdx n m cur) = _
        rw [if_pos hc, hs2, Function.iterate_succ_apply]
      · rw [Function.iterate_succ_apply]
        exact hs3
      · intro r hr1 hr2
        cases r with
        | zero => omega
        | succ r =>
          rw [Function.iterate_succ_apply]
          cases r with
          | zero => simpa using hc
          | succ r2 => exact hs4 (r2 + 1) (by omega) (by omega)
    · refine ⟨1, Nat.le_refl 1, by omega, ?_, by simpa using Nat.le_of_not_lt hc, by omega⟩
      show (if tIdx n m cur < i then firstGE n m i f (tIdx n m cur) else tIdx n m cur) = _
      rw [if_neg hc]
      simp

theorem firstGE_eq (n m i f cur s : Nat) (hs0 : 1 ≤ s) (hsf : s ≤ f)
    (hge : i ≤ (tIdx n m)^[s] cur)
    (hmin : ∀ r, 1 ≤ r → r < s → (tIdx n m)^[r] cur < i) :
    firstGE n m i f cur = (tIdx n m)^[s] cur := by
  obtain ⟨s2, h0, h1, h2, h3, h4⟩ := firstGE_spec n m i f cur ⟨s, hs0, hsf, hge⟩
  have he : s2 = s := by
    rcases Nat.lt_trichotomy s2 s with h | h | h
    · exact absurd h3 (Nat.not_le.mpr (hmin s2 h0 h))
    · exact h
    · exact absurd hge (Nat.not_le.mpr (h4 s hs0 h))
  rw [h2, he]

theorem firstGE_iterate (n m i : Nat) : ∀ (f cur : Nat),
    ∃ s, firstGE n m i f cur = (tIdx n m)^[s] cur := by
  intro f
  induction f with
  | zero => intro cur; exact ⟨0, rfl⟩
  | succ f ih =>
    intro cur
    by_cases hc : tIdx n m cur < i
    · obtain ⟨s, hs⟩ := ih (tIdx n m cur)
      refine ⟨s + 1, ?_⟩
      show (if tIdx n m cur < i then firstGE n m i f (tIdx n m cur) else tIdx n m cur) = _
      rw [if_pos hc, hs, Function.iterate_succ_apply]
    · refine ⟨1, ?_⟩
      show (if tIdx n m cur < i then firstGE n m i f (tIdx n m cur) else tIdx n m cur) = _
      rw [if_neg hc]
      simp

theorem iter_cycle_le (f : Nat → Nat) (x s1 B : Nat) (hs : 0 < s1) (hx : f^[s1] x = x)
    (hb : ∀ r, r < s1 → f^[r] x ≤ B) : ∀ d, f^[d] x ≤ B := by
  intro d
  induction d using Nat.strong_induction_on with
  | _ d ih =>
    by_cases hd : d < s1
    · exact hb d hd
    · have e : d = (d - s1) + s1 := by omega
      have h1 : f^[d] x = f^[d - s1] x := by
        conv_lhs => rw [e]
        rw [Function.iterate_add_apply, hx]
      rw [h1]
      exact ih (d - s1) (by omega)

theorem swapF_ne {α : Type} (a : Nat → α) (i j x : Nat) (h1 : x ≠ i) (h2 : x ≠ j) :
    swapF a i j x = a x := by
  show (if x = i then a j else if x = j then a i else a x) = a x
  rw [if_neg h1, if_neg h2]

theorem swapF_left {α : Type} (a : Nat → α) (i j : Nat) : swapF a i j i = a j := by
  show (if i = i then a j else if i = j then a i else a i) = a j
  rw [if_pos rfl]

theorem swapF_right {α : Type} (a : Nat → α) (i j : Nat) : swapF a i j j = a i := by
  show (if j = i then a j else if j = j then a i else a j) = a i
  by_cases h : j = i
  · rw [if_pos h, h]
  · rw [if_neg h, if_pos rfl]

theorem swapF_natural {α : Type} (a : Nat → α) (g : Nat → Nat) (i j : Nat) :
    swapF (fun x => a (g x)) i j = fun x => a (swapF g i j x) := by
  funext k
  show (if k = i then a (g j) else if k = j then a (g i) else a (g k))
    = a (if k = i then g j else if k = j then g i else g k)
  by_cases h1 : k = i
  · rw [if_pos h1, if_pos h1]
  · rw [if_neg h1, if_neg h1]
    by_cases h2 : k = j
    · rw [if_pos h2, if_pos h2]
    · rw [if_neg h2, if_neg h2]

theorem transposeStep_natural {α : Type} (n m i : Nat) (a : Nat → α) (g : Nat → Nat) :
    transposeStep n m i (fun x => a (g x)) = fun x => a (transposeStep n m i g x) := by
  show (if i < firstGE n m i (n * m) i
      then swapF (fun x => a (g x)) i (firstGE n m i (n * m) i) else fun x => a (g x))
    = fun x => a ((if i < firstGE n m i (n * m) i
      then swapF g i (firstGE n m i (n * m) i) else g) x)
  by_cases h : i < firstGE n m i (n * m) i
  · rw [if_pos h, if_pos h]
    exact swapF_natural a g i _
  · rw [if_neg h, if_neg h]

theorem transposeGo_natural {α : Type} (n m : Nat) :
    ∀ (k i : Nat) (a : Nat → α) (g : Nat → Nat),
    transposeGo n m k i (fun x => a (g x)) = fun x => a (transposeGo n m k i g x) := by
  intro k
  induction k with
  | zero => intro i a g; rfl
  | succ k ih =>
    intro i a g
    show transposeGo n m k (i + 1) (transposeStep n m i (fun x => a (g x))) = _
    rw [transposeStep_natural]
    exact ih (i + 1) a (transposeStep n m i g)

theorem transposeStep_out {α : Type} (n m i : Nat) (hi : i < n * m) (a : Nat → α)
    (x : Nat) (hx : n * m ≤ x) : transposeStep n m i a x = a x := by
  obtain ⟨s, hs⟩ := firstGE_iterate n m i (n * m) i
  have hj : firstGE n m i (n * m) i < n * m := by
    rw [hs]
    exact tIdx_iter_lt n m s i hi
  show (if i < firstGE n m i (n * m) i
      then swapF a i (firstGE n m i (n * m) i) else a) x = a x
  by_cases h : i < firstGE n m i (n * m) i
  · rw [if_pos h]
    exact swapF_ne a i _ x (by omega) (by omega)
  · rw [if_neg h]

theorem transposeGo_out {α : Type} (n m : Nat) : ∀ (k i : Nat), i + k ≤ n * m →
    ∀ (a : Nat → α) (x : Nat), n * m ≤ x → transposeGo n m k i a x = a x := by
  intro k
  induction k with
  | zero => intro i _ a x _; rfl
  | succ k ih =>
    intro i hik a x hx
    show transposeGo n m k (i + 1) (transposeStep n m i a) x = a x
    rw [ih (i + 1) (by omega) _ x hx]
    exact transposeStep_out n m i (by omega) a x hx

theorem tposInv_init (n m : Nat) : TposInv n m 0 id := by
  intro v hv
  unfold posSpec
  by_cases h : tIdx m n v ≤ 0
  · have h0 : tIdx m n v = 0 := by omega
    have hv2 : v < m * n := by
      rw [Nat.mul_comm]
      exact hv
    have h2 := congrArg (tIdx n m) h0
    rw [tIdx_tIdx m n v hv2] at h2
    have h3 : tIdx n m 0 = 0 := by
      unfold tIdx
      simp
    rw [if_pos h, h0]
    show (0 : Nat) = v
    rw [h2, h3]
  · have hv0 : v ≠ 0 := by
      intro h0
      subst h0
      refine h ?_
      unfold tIdx
      simp
    rw [if_neg h]
    rw [firstGTs_eq n m 0 (2 * (n * m) + 1) v 0 (by omega)
      (by simpa using Nat.pos_of_ne_zero hv0) (fun r hr => absurd hr (Nat.not_lt_zero r))]
    simp

theorem tposInv_step (n m t : Nat) (a : Nat → Nat) (ht : t + 1 < n * m)
    (ha : TposInv n m t a) : TposInv n m (t + 1) (transposeStep n m (t + 1) a) := by
  obtain ⟨p, hp1, hp2, hp3⟩ := tIdx_period n m (t + 1) ht
  obtain ⟨s1, hs10, hs11, hs12, hs13, hs14⟩ :=
    firstGE_spec n m (t + 1) (n * m) (t + 1) ⟨p, hp1, hp2, by rw [hp3]⟩
  have hJlt : (tIdx n m)^[s1] (t + 1) < n * m := tIdx_iter_lt n m s1 (t + 1) ht
  have hstepfn : transposeStep n m (t + 1) a
      = if t + 1 < (tIdx n m)^[s1] (t + 1)
        then swapF a (t + 1) ((tIdx n m)^[s1] (t + 1)) else a := by
    rw [← hs12]
    rfl
  have hiter_shift : ∀ r, (tIdx n m)^[r] (tIdx n m (t + 1)) = (tIdx n m)^[r + 1] (t + 1) := by
    intro r
    rw [Function.iterate_succ_apply]
  have hposPt : posSpec n m t (tIdx n m (t + 1)) = (tIdx n m)^[s1] (t + 1) := by
    have hgt : t < (tIdx n m)^[s1 - 1] (tIdx n m (t + 1)) := by
      rw [hiter_shift, show s1 - 1 + 1 = s1 from by omega]
      omega
    have hmin : ∀ r, r < s1 - 1 → (tIdx n m)^[r] (tIdx n m (t + 1)) ≤ t := by
      intro r hr
      rw [hiter_shift]
      have h0 := hs14 (r + 1) (by omega) (by omega)
      omega
    unfold posSpec
    rw [if_neg (by rw [tIdx_tIdx n m (t + 1) ht]; omega)]
    rw [firstGTs_eq n m t (2 * (n * m) + 1) (tIdx n m (t + 1)) (s1 - 1) (by omega) hgt hmin]
    rw [hiter_shift, show s1 - 1 + 1 = s1 from by omega]
  have haJ : a ((tIdx n m)^[s1] (t + 1)) = tIdx n m (t + 1) := by
    have h0 := ha (tIdx n m (t + 1)) (tIdx_lt n m (t + 1) ht)
    rwa [hposPt] at h0
  intro v hv
  have hv2 : v < m * n := by
    rw [Nat.mul_comm]
    exact hv
  have hPpv : tIdx n m (tIdx m n v) = v := tIdx_tIdx m n v hv2
  have hpvlt : tIdx m n v < n * m := by
    have h0 := tIdx_lt m n v hv2
    rwa [Nat.mul_comm m n] at h0
  rw [hstepfn]
  rcases Nat.lt_trichotomy (tIdx m n v) (t + 1) with hc | hc | hc
  · have hpos1 : posSpec n m (t + 1) v = tIdx m n v := by
      unfold posSpec
      rw [if_pos (by omega)]
    have hpos0 : posSpec n m t v = tIdx m n v := by
      unfold posSpec
      rw [if_pos (by omega)]
    have hav := ha v hv
    rw [hpos0] at hav
    rw [hpos1]
    by_cases hswap : t + 1 < (tIdx n m)^[s1] (t + 1)
    · rw [if_pos hswap, swapF_ne a (t + 1) ((tIdx n m)^[s1] (t + 1)) (tIdx m n v)
        (by omega) (by omega)]
      exact hav
    · rw [if_neg hswap]
      exact hav
  · have hveq : tIdx n m (t + 1) = v := by
      rw [← hc]
      exact hPpv
    have hpos1 : posSpec n m (t + 1) v = t + 1 := by
      unfold posSpec
      rw [if_pos (by omega), hc]
    rw [hpos1]
    have hav := ha v hv
    have hpos0 : posSpec n m t v = (tIdx n m)^[s1] (t + 1) := by
      rw [← hveq, hposPt]
    rw [hpos0] at hav
    by_cases hswap : t + 1 < (tIdx n m)^[s1] (t + 1)
    · rw [if_pos hswap, swapF_left]
      exact hav
    · rw [if_neg hswap]
      have hJt : (tIdx n m)^[s1] (t + 1) = t + 1 := by omega
      rw [hJt] at hav
      exact hav
  · have hpos0 : posSpec n m t v = firstGTs n m t (2 * (n * m) + 1) v := by
      unfold posSpec
      rw [if_neg (by omega)]
    obtain ⟨sp9, hsp91, hsp92⟩ := tIdx_inv_iterate n m v hv
    obtain ⟨sp, hsp1, hsp2, hsp3, hsp4⟩ := firstGTs_spec n m t (2 * (n * m) + 1) v
      ⟨sp9, by omega, by rw [hsp92]; omega⟩
    have hsple : sp ≤ sp9 := by
      by_contra hgt9
      have h0 := hsp4 sp9 (by omega)
      rw [hsp92] at h0
      omega
    have hav := ha v hv
    rw [hpos0, hsp2] at hav
    by_cases hp : t + 1 < (tIdx n m)^[sp] v
    · have hpos1 : posSpec n m (t + 1) v = (tIdx n m)^[sp] v := by
        unfold posSpec
        rw [if_neg (by omega)]
        exact firstGTs_eq n m (t + 1) (2 * (n * m) + 1) v sp hsp1 hp
          (fun r hr => by have h0 := hsp4 r hr; omega)
      rw [hpos1]
      by_cases hswap : t + 1 < (tIdx n m)^[s1] (t + 1)
      · have hne : (tIdx n m)^[sp] v ≠ (tIdx n m)^[s1] (t + 1) := by
          intro heq
          rw [heq] at hav
          rw [hav] at haJ
          have h0 : tIdx m n v = t + 1 := by
            rw [haJ, tIdx_tIdx n m (t + 1) ht]
          omega
        rw [if_pos hswap, swapF_ne a (t + 1) ((tIdx n m)^[s1] (t + 1)) ((tIdx n m)^[sp] v)
          (by omega) hne]
        exact hav
      · rw [if_neg hswap]
        exact hav
    · have hpt : (tIdx n m)^[sp] v = t + 1 := by omega
      have hshift2 : ∀ r, (tIdx n m)^[r + sp] v = (tIdx n m)^[r] (t + 1) := by
        intro r
        rw [Function.iterate_add_apply, hpt]
      by_cases hswap : t + 1 < (tIdx n m)^[s1] (t + 1)
      · have hgt2 : t + 1 < (tIdx n m)^[s1 + sp] v := by
          rw [hshift2 s1]
          exact hswap
        have hmin2 : ∀ r, r < s1 + sp → (tIdx n m)^[r] v ≤ t + 1 := by
          intro r hr
          by_cases hrsp : r < sp
          · have h0 := hsp4 r hrsp
            omega
          · have h9 := hshift2 (r - sp)
            rw [show r - sp + sp = r from by omega] at h9
            rw [h9]
            rcases Nat.eq_zero_or_pos (r - sp) with h0 | h0
            · rw [h0]
              simp
            · have h8 := hs14 (r - sp) (by omega) (by omega)
              omega
        have hpos1 : posSpec n m (t + 1) v = (tIdx n m)^[s1 + sp] v := by
          unfold posSpec
          rw [if_neg (by omega)]
          exact firstGTs_eq n m (t + 1) (2 * (n * m) + 1) v (s1 + sp) (by omega) hgt2 hmin2
        rw [hpos1, hshift2 s1, if_pos hswap, swapF_right, ← hpt]
        exact hav
      · exfalso
        have hJt : (tIdx n m)^[s1] (t + 1) = t + 1 := by omega
        have hball : ∀ r, r < s1 → (tIdx n m)^[r] (t + 1) ≤ t + 1 := by
          intro r hr
          rcases Nat.eq_zero_or_pos r with h0 | h0
          · rw [h0]
            simp
          · have h8 := hs14 r (by omega) hr
            omega
        have hall := iter_cycle_le (tIdx n m) (t + 1) s1 (t + 1) (by omega) hJt hball
        have h9 := hshift2 (sp9 - sp)
        rw [show sp9 - sp + sp = sp9 from by omega, hsp92] at h9
        have h10 := hall (sp9 - sp)
        omega

theorem transposeGo_inv (n m : Nat) : ∀ (k t : Nat) (a : Nat → Nat),
    t + 1 + k ≤ n * m → TposInv n m t a →
    TposInv n m (t + k) (transposeGo n m k (t + 1) a) := by
  intro k
  induction k with
  | zero => intro t a _ h; exact h
  | succ k ih =>
    intro t a hk h
    show TposInv n m (t + (k + 1))
      (transposeGo n m k (t + 1 + 1) (transposeStep n m (t + 1) a))
    have h1 := tposInv_step n m t a (by omega) h
    have h2 := ih (t + 1) (transposeStep n m (t + 1) a) (by omega) h1
    rwa [show t + 1 + k = t + (k + 1) from by omega] at h2

theorem iter_eq_last (n m : Nat) (hn : 0 < n) (hm : 0 < m) :
    ∀ (s v : Nat), v < n * m → (tIdx n m)^[s] v = n * m - 1 → v = n * m - 1 := by
  intro s
  induction s with
  | zero => intro v _ h; simpa using h
  | succ s ih =>
    intro v hv h
    rw [Function.iterate_succ_apply'] at h
    have h1 : tIdx n m ((tIdx n m)^[s] v) = tIdx n m (n * m - 1) := by
      rw [h, tIdx_last n m hn hm]
    have h2 := tIdx_inj n m _ _ (tIdx_iter_lt n m s v hv) (by omega) h1
    exact ih v hv h2

theorem transposeGo_id_eq (n m : Nat) (hn : 2 ≤ n) (hm : 2 ≤ m) (k : Nat) (hk : k < n * m) :
    transposeGo n m (n * m - 3) 1 id k = tIdx n m k := by
  have hN : 4 ≤ n * m := Nat.mul_le_mul hn hm
  have hinv := transposeGo_inv n m (n * m - 3) 0 id (by omega) (tposInv_init n m)
  rw [show (0 : Nat) + (n * m - 3) = n * m - 3 from by omega] at hinv
  have hvlt : tIdx n m k < n * m := tIdx_lt n m k hk
  have hv := hinv (tIdx n m k) hvlt
  have hpv : tIdx m n (tIdx n m k) = k := tIdx_tIdx n m k hk
  suffices hps : posSpec n m (n * m - 3) (tIdx n m k) = k by
    rw [hps] at hv
    exact hv
  by_cases hk3 : k ≤ n * m - 3
  · unfold posSpec
    rw [hpv, if_pos hk3]
  · rcases (show k = n * m - 2 ∨ k = n * m - 1 from by omega) with hk2 | hk2
    · obtain ⟨s9, hs91, hs92⟩ := tIdx_inv_iterate n m (tIdx n m k) hvlt
      rw [hpv] at hs92
      obtain ⟨sq, hsq1, hsq2, hsq3, hsq4⟩ := firstGTs_spec n m (n * m - 3) (2 * (n * m) + 1)
        (tIdx n m k) ⟨s9, by omega, by rw [hs92]; omega⟩
      have hsqlt : (tIdx n m)^[sq] (tIdx n m k) < n * m := tIdx_iter_lt n m sq _ hvlt
      have hcases : (tIdx n m)^[sq] (tIdx n m k) = n * m - 2 ∨
          (tIdx n m)^[sq] (tIdx n m k) = n * m - 1 := by omega
      unfold posSpec
      rw [hpv, if_neg (by omega)]
      rcases hcases with hc | hc
      · rw [hsq2, hc, hk2]
      · exfalso
        have h0 := iter_eq_last n m (by omega) (by omega) sq (tIdx n m k) hvlt hc
        have h1 : tIdx m n (n * m - 1) = n * m - 1 := by
          have h2 := tIdx_last m n (by omega) (by omega)
          rwa [Nat.mul_comm m n] at h2
        rw [h0, h1] at hpv
        omega
    · have h0 : tIdx n m k = k := by
        rw [hk2]
        exact tIdx_last n m (by omega) (by omega)
      unfold posSpec
      rw [hpv, if_neg (by omega)]
      rw [firstGTs_eq n m (n * m - 3) (2 * (n * m) + 1) (tIdx n m k) 0 (by omega)
        (by simpa using (show n * m - 3 < tIdx n m k from by rw [h0]; omega))
        (fun r hr => absurd hr (Nat.not_lt_zero r))]
      simpa using h0

theorem mx_transpose_content {α : Type} (n m : Nat) (hn : 2 ≤ n) (hm : 2 ≤ m)
    (a : Nat → α) (k : Nat) (hk : k < n * m) :
    mx_transpose n m a k = a (tIdx n m k) := by
  have hcond : n ≠ 1 ∧ m ≠ 1 := ⟨by omega, by omega⟩
  have h1 : mx_transpose n m a = transposeGo n m (n * m - 2 - 1) 1 a := by
    unfold mx_transpose
    rw [if_pos hcond]
  have h2 : n * m - 2 - 1 = n * m - 3 := by omega
  rw [h1, h2]
  have h3 : transposeGo n m (n * m - 3) 1 a
      = fun x => a (transposeGo n m (n * m - 3) 1 id x) := by
    have h4 := transposeGo_natural n m (n * m - 3) 1 a id
    simpa using h4
  rw [h3]
  show a (transposeGo n m (n * m - 3) 1 id k) = a (tIdx n m k)
  rw [transposeGo_id_eq n m hn hm k hk]

theorem mx_transpose_out {α : Type} (n m : Nat) (a : Nat → α) (x : Nat) (hx : n * m ≤ x) :
    mx_transpose n m a x = a x := by
  unfold mx_transpose
  split
  · by_cases hz : n * m - 2 - 1 = 0
    · rw [hz]
      rfl
    · exact transposeGo_out n m (n * m - 2 - 1) 1 (by omega) a x hx
  · rfl

/-- C9: for every `n x m` frame, applying the in-place cycle-following
transpose with dimensions `(n, m)` and then again with the swapped
dimensions `(m, n)` returns the original matrix — transposition is an
involution, including the degenerate no-op cases `n = 1` or `m = 1` (and
empty frames), and cells outside the `n*m` frame are never touched. -/
theorem c9_transpose_involution {α : Type} (n m : Nat) (a : Nat → α) :
    mx_transpose m n (mx_transpose n m a) = a := by
  funext k
  by_cases hdeg : n ≠ 1 ∧ m ≠ 1
  · by_cases hz : n = 0 ∨ m = 0
    · have h1 : n * m - 2 - 1 = 0 := by
        rcases hz with h | h <;> subst h <;> simp
      have h2 : m * n - 2 - 1 = 0 := by
        rcases hz with h | h <;> subst h <;> simp
      have e1 : mx_transpose n m a = a := by
        unfold mx_transpose
        rw [if_pos hdeg, h1]
        rfl
      have e2 : mx_transpose m n a = a := by
        unfold mx_transpose
        rw [if_pos ⟨hdeg.2, hdeg.1⟩, h2]
        rfl
      rw [e1, e2]
    · push_neg at hz
      have hn : 2 ≤ n := by omega
      have hm : 2 ≤ m := by omega
      by_cases hk : k < n * m
      · rw [mx_transpose_content m n hm hn (mx_transpose n m a) k
          (by rw [Nat.mul_comm]; exact hk)]
        have hlt : tIdx m n k < n * m := by
          have h0 := tIdx_lt m n k (by rw [Nat.mul_comm]; exact hk)
          rwa [Nat.mul_comm m n] at h0
        rw [mx_transpose_content n m hn hm a (tIdx m n k) hlt]
        rw [tIdx_tIdx m n k (by rw [Nat.mul_comm]; exact hk)]
      · rw [mx_transpose_out m n (mx_transpose n m a) k (by rw [Nat.mul_comm]; omega)]
        rw [mx_transpose_out n m a k (by omega)]
  · have hcond : ¬ (m ≠ 1 ∧ n ≠ 1) := fun hmn => hdeg ⟨hmn.2, hmn.1⟩
    have e1 : mx_transpose n m a = a := by
      unfold mx_transpose
      rw [if_neg hdeg]
    have e2 : mx_transpose m n a = a := by
      unfold mx_transpose
      rw [if_neg hcond]
    rw [e1, e2]
